import Mathlib

/-!
Verification of the craby agent daemon's planner–executor pipeline,
shell tool, schema-discovery tool and session handler against a shallow
embedding of the Go source.

Conventions of the embedding:
* Go strings are Lean `String`s; `strings.Contains` / `strings.Fields` /
  `strings.TrimSpace` are re-implemented below (`goContains`, `goFields`,
  `String.trim`).
* Go maps used by the source are modelled as insertion-ordered association
  lists (`upsert` / `lookupD`).  Go map iteration order is unspecified; the
  embedding fixes insertion order (one admissible behaviour of the code).
* External effects (the LM, subprocess execution, JSON decoding by
  `encoding/json`) are oracle parameters of the embedded functions; the
  surrounding control flow is translated from the source.
* Channels: the pipeline is the single producer of its event channel and the
  handler the single consumer, so an event stream is modelled as the `List`
  of events in emission order.
* Contexts are modelled as never cancelled (the daemon handler runs the
  pipeline with `context.Background()`).
-/

deriving instance DecidableEq for Except

namespace Craby

/-- Substring search on character lists (semantics of Go `strings.Contains`). -/
def listContains : List Char → List Char → Bool
  | _, [] => true
  | [], _ :: _ => false
  | c :: cs, sub => (sub.isPrefixOf (c :: cs)) || listContains cs sub

/-- Go `strings.Contains s sub`. -/
def goContains (s sub : String) : Bool :=
  listContains s.toList sub.toList

/-- Splitter for Go `strings.Fields`: split around runs of whitespace. -/
def fieldsAux : List Char → List Char → List String
  | acc, [] => if acc = [] then [] else [String.mk acc.reverse]
  | acc, c :: cs =>
    if c.isWhitespace then
      (if acc = [] then [] else [String.mk acc.reverse]) ++ fieldsAux [] cs
    else
      fieldsAux (c :: acc) cs

/-- Go `strings.Fields s`. -/
def goFields (s : String) : List String :=
  fieldsAux [] s.toList

/-- Go `strings.TrimSpace s` (kernel-evaluable, unlike `String.trim`). -/
def goTrimSpace (s : String) : String :=
  String.mk
    (((s.toList.dropWhile Char.isWhitespace).reverse.dropWhile
      Char.isWhitespace).reverse)

/-- Insert-or-replace on an insertion-ordered association list
(Go map write `m[k] = v`). -/
def upsert {α : Type} (m : List (String × α)) (k : String) (v : α) :
    List (String × α) :=
  match m with
  | [] => [(k, v)]
  | (k', v') :: rest =>
    if k' = k then (k, v) :: rest else (k', v') :: upsert rest k v

/-- Go map read with zero value (`m[k]` on a possibly missing key). -/
def lookupD {α : Type} (m : List (String × α)) (k : String) (d : α) : α :=
  match m with
  | [] => d
  | (k', v') :: rest => if k' = k then v' else lookupD rest k d

/-- Keys of an association list. -/
def keys {α : Type} (m : List (String × α)) : List String :=
  m.map (·.1)

/-! ## Agent data model (internal/agent) -/

/-- `agent.Message`. -/
structure Message where
  role : String
  content : String
deriving DecidableEq, Repr

/-- One `<arg name="…">value</arg>` entry of a plan step (`agent.PlanArg`). -/
structure PlanArg where
  name : String
  value : String
deriving DecidableEq, Repr

/-- `agent.PlanStep`. -/
structure PlanStep where
  id : String
  dependsOn : String
  tool : String
  purpose : String
  args : List PlanArg
deriving DecidableEq, Repr

/-- `agent.Plan`. -/
structure Plan where
  intent : String
  complexity : String
  needsTools : Bool
  readyToAnswer : Bool
  context : List String
  steps : List PlanStep
deriving DecidableEq, Repr

/-- `PlanStep.ArgsMap`: argument map with whitespace-trimmed values.
The Go method returns `map[string]any` of strings; the embedding keeps the
name/value pairs in document order. -/
def PlanStep.argsMap (s : PlanStep) : List (String × String) :=
  s.args.map (fun a => (a.name, goTrimSpace a.value))

/-- `agent.Role` (roles attached to text events). -/
inductive GoRole where
  | assistant
  | system
deriving DecidableEq, Repr

/-- `agent.Event`: the discriminated events emitted by the pipeline.
`toolCall`/`stepStarted` argument maps stand for the JSON string the source
produces with `json.Marshal` (its key order is unspecified in Go, so the
embedding keeps the map itself). -/
inductive Event where
  | text (content : String) (role : GoRole)
  | toolCall (id : String) (name : String) (args : List (String × String))
  | toolResult (id : String) (name : String) (output : String) (success : Bool)
  | planGenerated (plan : Plan)
  | stepStarted (name : String) (args : List (String × String))
  | shellCommand (command : String) (isDiscovery : Bool)
deriving DecidableEq, Repr

/-- `agent.StepResult`. -/
structure StepResult where
  stepID : String
  tool : String
  purpose : String
  output : String
  success : Bool
  error : String
deriving DecidableEq, Repr

/-- `agent.RunOptions`. -/
structure RunOptions where
  history : List Message
  context : String
deriving DecidableEq, Repr

/-! ## Session handler (internal/daemon/handler.go) -/

/-- `api.Role` of the transport frames. -/
inductive ApiRole where
  | ASSISTANT
  | SYSTEM
deriving DecidableEq, Repr

/-- Client-facing response frames (`api.ChatResponse` payload variants). -/
inductive Frame where
  | text (content : String) (role : ApiRole)
  | toolCall (id : String) (name : String) (args : List (String × String))
  | toolResult (id : String) (name : String) (output : String) (success : Bool)
  | shellCommand (command : String) (isDiscovery : Bool)
  | done
  | error (message : String)
deriving DecidableEq, Repr

/-- The event-translation switch of `Handler.processChat`:
`Text`, `ToolCall`, `ToolResult` and `ShellCommand` become frames;
`PlanGenerated` and `StepStarted` are logged only (`resp` stays nil). -/
def translateEvent : Event → Option Frame
  | .text content role =>
    some (.text content (if role = .system then .SYSTEM else .ASSISTANT))
  | .toolCall id name args => some (.toolCall id name args)
  | .toolResult id name output success => some (.toolResult id name output success)
  | .shellCommand command isDiscovery => some (.shellCommand command isDiscovery)
  | .planGenerated _ => none
  | .stepStarted _ _ => none

/-- Frames streamed by the event loop of `Handler.processChat`
(`resp != nil` sends, in event order). -/
def eventFrames (events : List Event) : List Frame :=
  events.filterMap translateEvent

/-- `Handler.processChat` after the streaming loop: on runner error the error
is returned (no further frame from `processChat`); on success the handler's
history is replaced with the returned history and a `Done` frame is sent.
Result: (new stored history, frames sent by `processChat`, propagated error). -/
def processChat (runResult : Except String (List Message)) (events : List Event)
    (history : List Message) :
    List Message × List Frame × Option String :=
  let frames := eventFrames events
  match runResult with
  | .error e => (history, frames, some e)
  | .ok h => (h, frames ++ [Frame.done], none)

/-- One request round of `Handler.HandleChat`: `processChat`, then
`sendError` when `processChat` returned an error.
Result: (stored history after the request, all frames sent to the client). -/
def handleChatRequest (runResult : Except String (List Message))
    (events : List Event) (history : List Message) :
    List Message × List Frame :=
  match processChat runResult events history with
  | (h, frames, some e) => (h, frames ++ [Frame.error e])
  | (h, frames, none) => (h, frames)

/-! ## Configuration (internal/config) -/

/-- `config.ShellSettings` (the fields the verified components read). -/
structure ShellSettings where
  enabled : Bool
  allowlist : List String
deriving DecidableEq, Repr

/-- `config.Settings` restricted to the shell-tool settings used here. -/
structure Settings where
  shell : ShellSettings
deriving DecidableEq, Repr

/-- `config.ToolAccess`. -/
structure ToolAccess where
  type : String
  command : String
deriving DecidableEq, Repr

/-- `config.ExternalTool` (fields read by the shell tool). -/
structure ExternalTool where
  name : String
  description : String
  whenToUse : String
  access : ToolAccess
deriving DecidableEq, Repr

/-- `Settings.IsCommandAllowed` (internal/config/settings.go). -/
def Settings.isCommandAllowed (s : Settings) (cmd : String) : Bool :=
  if !s.shell.enabled then false
  else s.shell.allowlist.any (fun allowed => allowed = cmd)

/-! ## Shell tool (internal/tools/shell.go) -/

/-- A Go `any` value as it appears in a tool argument map. -/
inductive GoVal where
  | str (s : String)
  | other
deriving DecidableEq, Repr

/-- The result pair of a Go tool `Execute(args) (string, error)`:
output together with an optional error message. -/
abbrev GoResult := String × Option String

/-- `wellKnownCommands`: system commands that skip help discovery. -/
def wellKnownCommands : List String :=
  ["ls", "cat", "head", "tail", "grep",
   "find", "wc", "sort", "uniq", "cut",
   "echo", "printf", "date", "cal",
   "pwd", "cd", "mkdir", "rmdir", "rm",
   "cp", "mv", "touch", "chmod", "chown",
   "whoami", "id", "groups", "uname",
   "hostname", "uptime", "ps", "top", "kill",
   "df", "du", "free", "mount", "umount",
   "ping", "curl", "wget", "ssh", "scp",
   "tar", "zip", "unzip", "gzip", "gunzip",
   "sed", "awk", "tr", "diff", "patch",
   "man", "which", "whereis", "type",
   "env", "export", "set", "unset",
   "true", "false", "test", "sleep",
   "xargs", "tee", "less", "more"]

/-- `dangerousPatterns` of `ShellTool.validateCommand`, in source order. -/
def dangerousPatterns : List String :=
  ["&&", "||", ";", "|", "`", "$(", "$\x7b", ">", "<"]

/-- `ShellTool.validateCommand`: metacharacter gate, then allowlist /
external-tool check on the first whitespace-separated token. -/
def validateCommand (settings : Settings) (externalTools : List ExternalTool)
    (command : String) : Option String :=
  match dangerousPatterns.find? (fun pattern => goContains command pattern) with
  | some pattern => some ("command contains disallowed pattern: " ++ pattern)
  | none =>
    match goFields command with
    | [] => some "empty command"
    | baseCmd :: _ =>
      if settings.isCommandAllowed baseCmd then none
      else if externalTools.any
          (fun ext => ext.access.type = "shell" && ext.access.command = baseCmd) then none
      else some ("command not in allowlist: " ++ baseCmd ++ " (allowed: " ++
        String.intercalate ", " settings.shell.allowlist ++ ")")

/-- Merging of the captured stdout/stderr buffers in `ShellTool.Execute`
(and identically in `fetchSingleHelp` / `getHelpText`). -/
def mergeOutput (stdout stderr : String) : String :=
  let output := stdout
  if stderr ≠ "" then
    (if output ≠ "" then output ++ "\n" else output) ++ stderr
  else output

/-- `ShellTool.runToolDiscoveryIfNeeded`.  The two discovery routines
(`runExternalToolDiscovery` for declared external tools, `discoverCommand`
otherwise) run `--help` subprocesses and assemble a report string; they are
oracle parameters here.  Note that `discoverCommand` in the source returns
the empty string when `fetchSingleHelp` finds no help-like output, so the
oracles range over all strings including `""`.  Returns (discovery text,
updated help cache). -/
def runToolDiscoveryIfNeeded (externalTools : List ExternalTool)
    (discoverExternal : ExternalTool → String) (discoverOther : String → String)
    (helpCache : List (String × String)) (command : String) :
    String × List (String × String) :=
  match goFields command with
  | [] => ("", helpCache)
  | baseCmd :: _ =>
    if wellKnownCommands.contains baseCmd then ("", helpCache)
    else if (helpCache.lookup baseCmd).isSome then ("", helpCache)
    else
      let externalTool := externalTools.find?
        (fun ext => ext.access.type = "shell" && ext.access.command = baseCmd)
      let discoveryText :=
        match externalTool with
        | some ext => discoverExternal ext
        | none => discoverOther baseCmd
      (discoveryText, upsert helpCache baseCmd discoveryText)

/-- Outcome of spawning `sh -c command` (oracle value for the subprocess). -/
structure RunOutcome where
  stdout : String
  stderr : String
  cmdErr : Option String
  timedOut : Bool
deriving DecidableEq, Repr

/-- `ShellTool.Execute`.  `runner` is the subprocess oracle; the returned
`List String` is the trace of commands actually handed to the runner (so a
rejected command provably spawns nothing).  Returns
((output, error), updated help cache, spawned commands). -/
def shellExecute (settings : Settings) (externalTools : List ExternalTool)
    (discoverExternal : ExternalTool → String) (discoverOther : String → String)
    (runner : String → RunOutcome) (helpCache : List (String × String))
    (args : List (String × GoVal)) :
    GoResult × List (String × String) × List String :=
  match args.lookup "command" with
  | none => (("", some "missing required parameter: command"), helpCache, [])
  | some GoVal.other => (("", some "command must be a string"), helpCache, [])
  | some (GoVal.str command) =>
    match validateCommand settings externalTools command with
    | some e => (("", some e), helpCache, [])
    | none =>
      let disc :=
        runToolDiscoveryIfNeeded externalTools discoverExternal discoverOther
          helpCache command
      let discoveryInfo := disc.1
      let helpCache' := disc.2
      let oc := runner command
      let output := mergeOutput oc.stdout oc.stderr
      if oc.timedOut then
        ((output, some "command timed out after 30s"), helpCache', [command])
      else
        let output :=
          if discoveryInfo ≠ "" then
            discoveryInfo ++ "\n---\nCommand output:\n" ++ output
          else output
        match oc.cmdErr with
        | some e => ((output, some ("command failed: " ++ e)), helpCache', [command])
        | none => ((output, none), helpCache', [command])

/-! ## Schema discovery tool (internal/tools, `GetCommandSchemaTool`) -/

/-- The built-in whitelist of `GetCommandSchemaTool.isCommandAllowed`
(`safeCommands` in the source). -/
def safeCommands : List String :=
  ["git", "docker", "kubectl", "npm",
   "yarn", "pnpm", "cargo", "go",
   "python", "pip", "node", "ruby",
   "make", "cmake", "gradle", "mvn"]

/-- `GetCommandSchemaTool.isCommandAllowed`. -/
def schemaIsCommandAllowed (settings : Settings) (command : String) : Bool :=
  if settings.isCommandAllowed command then true
  else safeCommands.contains command

/-- `GetCommandSchemaTool.getHelpText` given the merged stdout/stderr of
`<cmd> [sub] --help` (subprocess output is an oracle value; string lengths
stand for Go byte lengths). -/
def getHelpText (rawCombined : String) : Except String String :=
  if rawCombined.length < 20 then Except.error "no help output available"
  else if rawCombined.length > 8000 then
    Except.ok (String.mk (rawCombined.toList.take 8000) ++ "\n... (truncated)")
  else Except.ok rawCombined

/-- The pinned system prompt of `GetCommandSchemaTool.generateSchema`. -/
def schemaSystemPrompt : String :=
  "# Role\nYou are a CLI Documentation Parser. Your task is to transform raw \"--help\" output into a precise, machine-readable JSON schema. All descriptions and text in the output MUST be in English.\n\n# Task\nAnalyze the provided help text and output ONLY a valid JSON object.\n\n# Schema Specification\n\x7b\n  \"name\": \"full_command_path\",\n  \"description\": \"Concise summary of purpose in English\",\n  \"subcommands\": [\n    \x7b\n      \"name\": \"name\", \n      \"description\": \"description in English\"\n    \x7d\n  ],\n  \"flags\": [\n    \x7b\n      \"name\": \"--long-name\",\n      \"short\": \"-s\",\n      \"description\": \"description in English\",\n      \"type\": \"boolean | string | number | array\",\n      \"required\": false,\n      \"default\": \"value or null\"\n    \x7d\n  ],\n  \"arguments\": [\n    \x7b\n      \"name\": \"arg_name\",\n      \"description\": \"description in English\",\n      \"required\": true,\n      \"variadic\": false\n    \x7d\n  ],\n  \"examples\": [\n    \"example usage 1\",\n    \"example usage 2\"\n  ]\n\x7d\n\n# Strict Guidelines\n1. **Language**: The entire output must be in English, regardless of the language of the source help text.\n2. **Type Precision**: \n   - Use \"boolean\" for \"switches\" (flags with no value).\n   - Use \"string\" or \"number\" for options that require an argument (e.g., \"--port 80\").\n   - Use \"array\" if a flag can be passed multiple times.\n3. **Completeness**: Include all subcommands. For flags, prioritize the 10 most relevant if the list is exhaustive.\n4. **Required vs. Optional**: Infer \"required: true\" if the help text uses angle brackets like \"<item>\" or explicitly states a field is mandatory.\n5. **Variadic Arguments**: Mark \"variadic: true\" for arguments that accept multiple values (e.g., \"[files...]\").\n6. **No Prose**: Output the JSON block only. Do not include introductory text, conversational filler, or markdown code blocks in your response."

/-- Index of the first `'\x7b'` in a string (`strings.Index(response, "\x7b")`;
`none` stands for `-1`).  Character indices model Go byte indices. -/
def firstBraceIdx (s : String) : Option Nat :=
  s.toList.findIdx? (fun c => c = Char.ofNat 123)

/-- Index of the last `'\x7d'` in a string (`strings.LastIndex(response, "\x7d")`). -/
def lastBraceIdx (s : String) : Option Nat :=
  match (s.toList.reverse.findIdx? (fun c => c = Char.ofNat 125)) with
  | none => none
  | some i => some (s.toList.length - 1 - i)

/-- Go slice `s[a:b]` on the character model. -/
def goSlice (s : String) (a b : Nat) : String :=
  String.mk ((s.toList.drop a).take (b - a))

/-- `GetCommandSchemaTool.generateSchema`.  `jsonParse` is the oracle for
`json.Unmarshal` into `map[string]any` over an abstract schema type `σ`
(`none` = parse failure; the embedding keeps only the error prefixes of the
source's wrapped errors); `simpleChat` is the LM oracle, `none` when the
tool has no LM (`t.llm == nil`). -/
def generateSchema {σ : Type} (jsonParse : String → Option σ)
    (simpleChat : Option (String → String → Except String String))
    (command subcommand helpText : String) : Except String σ :=
  match simpleChat with
  | none => Except.error "no LLM available for schema generation"
  | some chat =>
    let cmdName := if subcommand ≠ "" then command ++ " " ++ subcommand else command
    let userMessage := "Convert this help text for `" ++ cmdName ++
      "` into a JSON schema:\n\n```\n" ++ helpText ++ "\n```"
    match chat schemaSystemPrompt userMessage with
    | Except.error e => Except.error ("LLM call failed: " ++ e)
    | Except.ok response0 =>
      let response := goTrimSpace response0
      match jsonParse response with
      | some schema => Except.ok schema
      | none =>
        match firstBraceIdx response, lastBraceIdx response with
        | some start, some stop =>
          if stop > start then
            match jsonParse (goSlice response start (stop + 1)) with
            | some schema => Except.ok schema
            | none => Except.error "failed to parse LLM response as JSON"
          else Except.error "no JSON found in LLM response"
        | _, _ => Except.error "no JSON found in LLM response"

/-- `GetCommandSchemaTool.Execute`.  `helpRaw` is the subprocess oracle for
the merged `--help` output of (command, subcommand); `formatSchema` is the
markdown renderer of a parsed schema value (its output is only reached on
the successful-parse path, which the claims here do not traverse). -/
def getCommandSchemaExecute {σ : Type} (settings : Settings)
    (jsonParse : String → Option σ)
    (simpleChat : Option (String → String → Except String String))
    (helpRaw : String → String → String)
    (formatSchema : String → String → σ → String → String)
    (args : List (String × GoVal)) : GoResult :=
  match args.lookup "command" with
  | none => ("", some "missing required parameter: command")
  | some GoVal.other => ("", some "command must be a string")
  | some (GoVal.str command) =>
    let subcommand :=
      match args.lookup "subcommand" with
      | some (GoVal.str sub) => sub
      | _ => ""
    if !schemaIsCommandAllowed settings command then
      ("", some ("command not in allowlist: " ++ command))
    else
      match getHelpText (helpRaw command subcommand) with
      | Except.error e =>
        ("", some ("failed to get help for " ++ command ++ ": " ++ e))
      | Except.ok helpText =>
        match generateSchema jsonParse simpleChat command subcommand helpText with
        | Except.error e =>
          ("# " ++ command ++ " Help\n\nCould not generate schema: " ++ e ++
            "\n\nRaw help:\n```\n" ++ helpText ++ "\n```", none)
        | Except.ok schema =>
          (formatSchema command subcommand schema helpText, none)

/-! ## Pipeline (internal/agent, `Pipeline.Run` and helpers)

`executionOrder` is Kahn's algorithm; its `for len(queue) > 0` loop is a
well-founded recursion here, justified by the measure
`queue length + sum of positive in-degrees` (the two lemmas directly below
exist only to discharge that termination obligation). -/

/-- Sum of the positive parts of the in-degree table (termination measure). -/
def degSum (deg : List (String × Int)) : Nat :=
  (deg.map (fun p => p.2.toNat)).sum

theorem degSum_upsert (m : List (String × Int)) (k : String) (v : Int) :
    degSum (upsert m k v) + (lookupD m k 0).toNat = degSum m + v.toNat := by
  induction m with
  | nil => simp [upsert, lookupD, degSum]
  | cons p rest ih =>
    obtain ⟨k', v'⟩ := p
    by_cases h : k' = k
    · simp [upsert, lookupD, h, degSum]
      omega
    · simp only [upsert, lookupD, h, if_false, degSum, List.map_cons, List.sum_cons]
      simp only [degSum] at ih
      omega

theorem lookupD_toNat_le_degSum (m : List (String × Int)) (k : String) :
    (lookupD m k 0).toNat ≤ degSum m := by
  induction m with
  | nil => simp [lookupD, degSum]
  | cons p rest ih =>
    obtain ⟨k', v'⟩ := p
    by_cases h : k' = k <;>
      simp only [lookupD, h, if_true, if_false, degSum, List.map_cons, List.sum_cons] <;>
      simp only [degSum] at ih <;> omega

/-- The per-dependent body of the Kahn loop: decrement the dependent's
in-degree and enqueue it when the degree reaches zero. -/
def kahnStep (p : List (String × Int) × List String) (c : String) :
    List (String × Int) × List String :=
  let d := lookupD p.1 c 0 - 1
  let m := upsert p.1 c d
  if d = 0 then (m, p.2 ++ [c]) else (m, p.2)

theorem kahnStep_measure (p : List (String × Int) × List String) (c : String) :
    (kahnStep p c).2.length + degSum (kahnStep p c).1 ≤ p.2.length + degSum p.1 := by
  unfold kahnStep
  have hup := degSum_upsert p.1 c (lookupD p.1 c 0 - 1)
  have hle := lookupD_toNat_le_degSum p.1 c
  by_cases h : lookupD p.1 c 0 - 1 = 0
  · have hv : lookupD p.1 c 0 = 1 := by omega
    simp only [h, if_true, List.length_append, List.length_singleton]
    rw [hv] at hup
    simp at hup
    rw [hv] at hle
    omega
  · simp only [h, if_false]
    have : ((lookupD p.1 c 0 - 1)).toNat ≤ (lookupD p.1 c 0).toNat := by omega
    omega

theorem kahnFold_measure (children : List String)
    (p : List (String × Int) × List String) :
    (children.foldl kahnStep p).2.length + degSum (children.foldl kahnStep p).1 ≤
      p.2.length + degSum p.1 := by
  induction children generalizing p with
  | nil => simp
  | cons c rest ih =>
    simp only [List.foldl_cons]
    exact le_trans (ih (kahnStep p c)) (kahnStep_measure p c)

/-- The `for len(queue) > 0` loop of `Pipeline.executionOrder`: pop the queue
head in FIFO order, append its step to the result, decrement its dependents.
The loop is structurally recursive on a fuel argument so that it evaluates in
the kernel; `executionOrder` passes `queue length + degSum` — exactly the
loop's strictly decreasing measure — so the fuel-exhaustion branch is never
taken (`kahnLoop_fuel_succ` below certifies that any fuel at least the
measure yields the same result as the unbounded Go loop).  The `none` branch
of the step-map lookup is unreachable for the states the algorithm builds
(in Go it would dereference a nil pointer). -/
def kahnLoop (stepMap : List (String × PlanStep))
    (dependents : List (String × List String)) :
    Nat → List String → List (String × Int) → List PlanStep → List PlanStep
  | _, [], _, result => result
  | 0, _ :: _, _, result => result
  | fuel + 1, id :: rest, deg, result =>
    let result' :=
      match stepMap.lookup id with
      | some s => result ++ [s]
      | none => result
    let st := (lookupD dependents id []).foldl kahnStep (deg, rest)
    kahnLoop stepMap dependents fuel st.2 st.1 result'

/-- The `stepMap` local of `executionOrder`: id → step, last write wins. -/
def buildStepMap (steps : List PlanStep) : List (String × PlanStep) :=
  steps.foldl (fun m s => upsert m s.id s) []

/-- The `inDegree` local of `executionOrder`: zero-initialized per step id,
then incremented once per step that declares a dependency. -/
def buildInDegree (steps : List PlanStep) : List (String × Int) :=
  steps.foldl
    (fun m s =>
      if s.dependsOn ≠ "" then upsert m s.id (lookupD m s.id 0 + 1) else m)
    (steps.foldl (fun m s => upsert m s.id (0 : Int)) [])

/-- The `dependents` local of `executionOrder`: dependency id → ids of the
steps depending on it, in step order. -/
def buildDependents (steps : List PlanStep) : List (String × List String) :=
  steps.foldl
    (fun m s =>
      if s.dependsOn ≠ "" then
        upsert m s.dependsOn (lookupD m s.dependsOn [] ++ [s.id])
      else m)
    ([] : List (String × List String))

/-- The initial `queue` of `executionOrder`: all zero-in-degree ids, in the
in-degree table's insertion order (one admissible iteration order of the Go
map). -/
def initQueue (steps : List PlanStep) : List String :=
  ((buildInDegree steps).filter (fun p => p.2 = 0)).map (·.1)

/-- `Pipeline.executionOrder`: dependency-resolved order via Kahn's
algorithm, or the circular-dependency error. -/
def executionOrder (steps : List PlanStep) : Except String (List PlanStep) :=
  if steps.length = 0 then Except.ok []
  else
    let stepMap := buildStepMap steps
    let inDegree := buildInDegree steps
    let dependents := buildDependents steps
    let queue := initQueue steps
    let result :=
      kahnLoop stepMap dependents (queue.length + degSum inDegree) queue inDegree []
    if result.length ≠ steps.length then
      Except.error "circular dependency detected in plan steps"
    else Except.ok result

/-- `Pipeline.validate` over one plan's steps: every tool resolves in the
registry (modelled by its list of tool names) and every non-empty
`depends_on` matches a step id of the same plan.  `none` = no error. -/
def validateSteps (registry : List String) (allSteps : List PlanStep) :
    List PlanStep → Option String
  | [] => none
  | step :: rest =>
    if !(registry.contains step.tool) then
      some ("step " ++ step.id ++ ": unknown tool \"" ++ step.tool ++ "\"")
    else if step.dependsOn ≠ "" && !(allSteps.any (fun s => s.id = step.dependsOn)) then
      some ("step " ++ step.id ++ ": depends on unknown step \"" ++
        step.dependsOn ++ "\"")
    else validateSteps registry allSteps rest

/-- `Pipeline.validate`. -/
def validate (registry : List String) (plan : Plan) : Option String :=
  validateSteps registry plan.steps plan.steps

/-- The per-step body of `Pipeline.execute` over the ordered steps:
emit `StepStarted` and `ToolCall`, dispatch through the registry's executor
(`exec`, the oracle for `registry.Execute`), convert an error into
`"Error: " + message` with `success = false`, emit `ToolResult`, and record
the `StepResult` — then continue with the remaining steps. -/
def executeOrdered (exec : String → List (String × String) → GoResult) :
    List PlanStep → List StepResult × List Event
  | [] => ([], [])
  | step :: rest =>
    let args := step.argsMap
    let r := exec step.tool args
    let success := r.2.isNone
    let output := match r.2 with | some m => "Error: " ++ m | none => r.1
    let errorMsg := match r.2 with | some m => m | none => ""
    let res : StepResult :=
      { stepID := step.id, tool := step.tool, purpose := step.purpose,
        output := output, success := success, error := errorMsg }
    let rest' := executeOrdered exec rest
    (res :: rest'.1,
      Event.stepStarted step.tool args :: Event.toolCall step.id step.tool args ::
        Event.toolResult step.id step.tool output success :: rest'.2)

/-- `Pipeline.execute`: order the steps, then run them sequentially.
Returns (result-or-error, events emitted on the channel). -/
def execute (exec : String → List (String × String) → GoResult) (plan : Plan) :
    Except String (List StepResult) × List Event :=
  match executionOrder plan.steps with
  | Except.error e => (Except.error e, [])
  | Except.ok ordered =>
    let re := executeOrdered exec ordered
    (Except.ok re.1, re.2)

/-- `MaxIterations` (internal/agent, pipeline). -/
def MaxIterations : Nat := 10

/-- The `for iteration := 0; iteration < MaxIterations` loop of
`Pipeline.Run`.  `plans` is the oracle for `planWithResults` (LM call plus
plan parsing) at each iteration index; the context is never cancelled.
Returns (accumulated results or the propagated error, events so far). -/
def runLoop (registry : List String)
    (exec : String → List (String × String) → GoResult)
    (plans : Nat → Except String Plan) :
    Nat → Nat → List StepResult → List Event →
      Except String (List StepResult) × List Event
  | 0, _, allResults, events => (Except.ok allResults, events)
  | fuel + 1, iteration, allResults, events =>
    match plans iteration with
    | Except.error e =>
      (Except.error ("planning failed (iteration " ++ toString iteration ++ "): " ++ e),
        events)
    | Except.ok plan =>
      let events := events ++ [Event.planGenerated plan]
      if plan.readyToAnswer || (!plan.needsTools && plan.steps.length = 0) then
        (Except.ok allResults, events)
      else if plan.needsTools && plan.steps.length > 0 then
        match validate registry plan with
        | some e =>
          (Except.error
            ("validation failed (iteration " ++ toString iteration ++ "): " ++ e),
            events)
        | none =>
          match execute exec plan with
          | (Except.error e, evs) =>
            (Except.error
              ("execution failed (iteration " ++ toString iteration ++ "): " ++ e),
              events ++ evs)
          | (Except.ok results, evs) =>
            runLoop registry exec plans fuel (iteration + 1)
              (allResults ++ results) (events ++ evs)
      else
        runLoop registry exec plans fuel (iteration + 1) allResults events

/-- `Pipeline.Run`.  `synth` is the oracle for `synthesize`: the streamed
tokens (each forwarded as an assistant `Text` event) together with the LM
result or error.  On success the returned history is
`opts.history ++ [user(userMessage), assistant(answer)]`. -/
def pipelineRun (registry : List String)
    (exec : String → List (String × String) → GoResult)
    (plans : Nat → Except String Plan)
    (synth : List String × Except String String)
    (userMessage : String) (opts : RunOptions) :
    Except String (List Message) × List Event :=
  match runLoop registry exec plans MaxIterations 0 [] [] with
  | (Except.error e, events) => (Except.error e, events)
  | (Except.ok _, events) =>
    let events := events ++ synth.1.map (fun t => Event.text t GoRole.assistant)
    match synth.2 with
    | Except.error e => (Except.error ("synthesis failed: " ++ e), events)
    | Except.ok answer =>
      (Except.ok (opts.history ++
        [{ role := "user", content := userMessage },
         { role := "assistant", content := answer }]), events)

/-! ## Statement vocabulary (predicates used only to state theorems) -/

/-- Frame classifier: is this an `Error` frame? -/
def Frame.isError : Frame → Bool
  | .error _ => true
  | _ => false

/-- Frame classifier: is this the `Done` frame? -/
def Frame.isDone : Frame → Bool
  | .done => true
  | _ => false

/-- Event classifier: is this a `PlanGenerated` event? -/
def Event.isPlanGenerated : Event → Bool
  | .planGenerated _ => true
  | _ => false

/-- Event classifier: the four event kinds the handler forwards to clients. -/
def Event.isClientVisible : Event → Bool
  | .text _ _ => true
  | .toolCall _ _ _ => true
  | .toolResult _ _ _ _ => true
  | .shellCommand _ _ => true
  | .planGenerated _ => false
  | .stepStarted _ _ => false

/-- The shapes of the errors `Pipeline.Run` can return: every terminal error
is a wrapped planning, validation, execution or synthesis failure. -/
def PipelineErrorForm (e : String) : Prop :=
  (∃ (i : Nat) (msg : String),
    e = "planning failed (iteration " ++ toString i ++ "): " ++ msg) ∨
  (∃ (i : Nat) (msg : String),
    e = "validation failed (iteration " ++ toString i ++ "): " ++ msg) ∨
  (∃ (i : Nat) (msg : String),
    e = "execution failed (iteration " ++ toString i ++ "): " ++ msg) ∨
  (∃ msg : String, e = "synthesis failed: " ++ msg)

/-- A cycle of the dependency graph of a step list: a non-empty chain of
steps, each carrying a real dependency edge (`depends_on` non-empty) to the
id of the next, wrapping around from the last back to the first. -/
def HasCycle (steps : List PlanStep) : Prop :=
  ∃ (s : PlanStep) (l : List PlanStep),
    (∀ x ∈ s :: l, x ∈ steps) ∧
    (∀ x ∈ s :: l, x.dependsOn ≠ "") ∧
    List.Chain' (fun a b => a.dependsOn = b.id) (s :: l) ∧
    ((s :: l).getLast (List.cons_ne_nil s l)).dependsOn = s.id

/-- `[x, f x, f (f x), …]` with `k+1` elements (used to exhibit a cycle by
iterating the parent map of the dependency graph). -/
def iterChain (f : PlanStep → PlanStep) : Nat → PlanStep → List PlanStep
  | 0, x => [x]
  | n + 1, x => x :: iterChain f n (f x)

/-- Each element's dependency id occurs among the previously seen ids —
stated with an accumulator so it composes along the Kahn loop. -/
def depsOk (seen : List String) : List PlanStep → Prop
  | [] => True
  | x :: rest => (x.dependsOn ≠ "" → x.dependsOn ∈ seen) ∧
      depsOk (seen ++ [x.id]) rest

/-- The initial in-degree of a step in the plan's dependency graph. -/
def degInit (s : PlanStep) : Int :=
  if s.dependsOn = "" then 0 else 1

/-- The parent map of the dependency graph: the (unique, under distinct ids)
step whose id a given step's `depends_on` names, defaulting to the step
itself when no such step exists. -/
def parentOf (steps : List PlanStep) (t : PlanStep) : PlanStep :=
  (steps.find? (fun u => u.id == t.dependsOn)).getD t

/-- What the Kahn loop guarantees about its returned list `r`: every entry is
a plan step, ids are pairwise distinct, every entry's dependency id occurs
strictly earlier in `r`, and every step missing from `r` carries a dependency
edge to another step missing from `r`. -/
def kahnPost (steps r : List PlanStep) : Prop :=
  (∀ x ∈ r, x ∈ steps) ∧ (r.map PlanStep.id).Nodup ∧ depsOk [] r ∧
  ∀ t ∈ steps, t.id ∉ r.map PlanStep.id →
    t.dependsOn ≠ "" ∧ t.dependsOn ∉ r.map PlanStep.id

/-! ## Concrete fixtures (inputs for witnesses and counterexamples) -/

/-- A plan that immediately reports `ready_to_answer` (scenario S1). -/
def readyPlan : Plan :=
  { intent := "Answer a simple math question", complexity := "simple",
    needsTools := false, readyToAnswer := true, context := [], steps := [] }

/-- A single valid tool step with no dependency. -/
def loopStep : PlanStep :=
  { id := "step_1", dependsOn := "", tool := "test_tool", purpose := "p",
    args := [] }

/-- A plan that wants a tool on every iteration and never reports
`ready_to_answer`. -/
def loopPlan : Plan :=
  { intent := "loop", complexity := "tool", needsTools := true,
    readyToAnswer := false, context := [], steps := [loopStep] }

/-- A two-step plan with one dependency edge (scenario S3). -/
def depSteps : List PlanStep :=
  [{ id := "step_a", dependsOn := "", tool := "list_tool", purpose := "A",
     args := [] },
   { id := "step_b", dependsOn := "step_a", tool := "read_tool", purpose := "B",
     args := [] }]

/-- Two steps sharing the id `"x"` with no dependencies — validation accepts
this list, its dependency graph has no edge at all, yet `executionOrder`
reports a circular dependency (the id-keyed maps collapse the two steps). -/
def dupIdSteps : List PlanStep :=
  [{ id := "x", dependsOn := "", tool := "t", purpose := "first", args := [] },
   { id := "x", dependsOn := "", tool := "t", purpose := "second", args := [] }]

/-- The circular two-step plan of scenario S4. -/
def cycleSteps : List PlanStep :=
  [{ id := "s1", dependsOn := "s2", tool := "test_tool", purpose := "A",
     args := [] },
   { id := "s2", dependsOn := "s1", tool := "test_tool", purpose := "B",
     args := [] }]

/-- A plan whose single step's tool fails (scenario S6). -/
def failPlan : Plan :=
  { intent := "fail", complexity := "tool", needsTools := true,
    readyToAnswer := false, context := [],
    steps := [{ id := "step_1", dependsOn := "", tool := "failing_tool",
                purpose := "Do something", args := [] }] }

/-- A later-iteration plan that reports `ready_to_answer`. -/
def readyToolPlan : Plan :=
  { intent := "fail", complexity := "tool", needsTools := true,
    readyToAnswer := true, context := [], steps := [] }

/-- A declared external tool reachable through the shell (`tfl`). -/
def tflTool : ExternalTool :=
  { name := "tfl", description := "TfL CLI", whenToUse := "",
    access := { type := "shell", command := "tfl" } }

/-- A successful subprocess outcome. -/
def goodServiceOutcome : RunOutcome :=
  { stdout := "All lines: Good Service", stderr := "", cmdErr := none,
    timedOut := false }

/-! ## Theorems -/

/-- Fuel adequacy for `kahnLoop`: any fuel at least the loop measure
`queue length + degSum` behaves like the unbounded Go loop (adding more fuel
changes nothing), so `executionOrder`'s fuel choice is faithful. -/
theorem kahnLoop_fuel_succ (stepMap : List (String × PlanStep))
    (dependents : List (String × List String)) :
    ∀ (fuel : Nat) (q : List String) (deg : List (String × Int))
      (result : List PlanStep), q.length + degSum deg ≤ fuel →
      kahnLoop stepMap dependents fuel q deg result =
        kahnLoop stepMap dependents (fuel + 1) q deg result := by
  intro fuel
  induction fuel with
  | zero =>
    intro q deg result hq
    match q with
    | [] => rfl
    | _ :: _ => simp at hq
  | succ fuel ih =>
    intro q deg result hq
    match q with
    | [] => rfl
    | id :: rest =>
      show kahnLoop stepMap dependents (fuel + 1) (id :: rest) deg result = _
      rw [kahnLoop, kahnLoop]
      apply ih
      have h := kahnFold_measure (lookupD dependents id []) (deg, rest)
      simp only [Prod.fst, Prod.snd] at h
      simp only [List.length_cons] at hq
      omega

theorem translateEvent_isSome_iff (e : Event) :
    (translateEvent e).isSome = e.isClientVisible := by
  cases e <;> rfl

theorem eventFrames_no_error_no_done (events : List Event) :
    ∀ f ∈ eventFrames events, f.isError = false ∧ f.isDone = false := by
  intro f hf
  simp only [eventFrames, List.mem_filterMap] at hf
  obtain ⟨e, _, he⟩ := hf
  cases e <;> simp only [translateEvent, Option.some.injEq] at he <;>
    first
      | exact absurd he (by simp)
      | (subst he; exact ⟨rfl, rfl⟩)

/-- C10: the session handler forwards only `Text`, `ToolCall`, `ToolResult`
and `ShellCommand` events as client frames: inserting a `PlanGenerated` or
`StepStarted` event anywhere in the stream leaves the frames unchanged,
every emitted frame originates from a client-visible event, and every
client-visible event contributes exactly one frame (frame count = count of
client-visible events). -/
theorem C10_plan_and_step_events_never_sent :
    (∀ (l₁ l₂ : List Event) (p : Plan),
      eventFrames (l₁ ++ Event.planGenerated p :: l₂) = eventFrames (l₁ ++ l₂)) ∧
    (∀ (l₁ l₂ : List Event) (name : String) (args : List (String × String)),
      eventFrames (l₁ ++ Event.stepStarted name args :: l₂) = eventFrames (l₁ ++ l₂)) ∧
    (∀ (events : List Event), ∀ f ∈ eventFrames events,
      ∃ e ∈ events, translateEvent e = some f ∧ e.isClientVisible = true) ∧
    (∀ events : List Event,
      (eventFrames events).length = (events.filter Event.isClientVisible).length) := by
  refine ⟨?_, ?_, ?_, ?_⟩
  · intro l₁ l₂ p
    simp [eventFrames, List.filterMap_append, translateEvent]
  · intro l₁ l₂ name args
    simp [eventFrames, List.filterMap_append, translateEvent]
  · intro events f hf
    simp only [eventFrames, List.mem_filterMap] at hf
    obtain ⟨e, he, ht⟩ := hf
    refine ⟨e, he, ht, ?_⟩
    rw [← translateEvent_isSome_iff, ht]
    rfl
  · intro events
    induction events with
    | nil => rfl
    | cons e rest ih =>
      have h := translateEvent_isSome_iff e
      cases hc : e.isClientVisible
      · rw [hc] at h
        have hnone : translateEvent e = none := by
          cases ht : translateEvent e
          · rfl
          · rw [ht] at h
            simp at h
        simp only [eventFrames, List.filterMap_cons, List.filter_cons, hc, hnone]
        simpa [eventFrames] using ih
      · rw [hc] at h
        rw [Option.isSome_iff_exists] at h
        obtain ⟨fr, hfr⟩ := h
        simp only [eventFrames, List.filterMap_cons, List.filter_cons, hc, hfr,
          List.length_cons, if_true]
        simpa [eventFrames] using ih

/-- Closed instance of C10: a stream with a plan, a step-started and a text
event yields exactly the one text frame. -/
theorem C10_plan_and_step_events_never_sent_witness :
    eventFrames [Event.planGenerated
        { intent := "i", complexity := "simple", needsTools := false,
          readyToAnswer := true, context := [], steps := [] },
      Event.stepStarted "shell" [], Event.text "hi" GoRole.assistant] =
      [Frame.text "hi" ApiRole.ASSISTANT] ∧
    eventFrames ([Event.text "hi" GoRole.assistant] ++
        Event.stepStarted "shell" [] :: [Event.shellCommand "ls" false]) =
      eventFrames ([Event.text "hi" GoRole.assistant] ++
        [Event.shellCommand "ls" false]) :=
  ⟨by decide,
    C10_plan_and_step_events_never_sent.2.1 [Event.text "hi" GoRole.assistant]
      [Event.shellCommand "ls" false] "shell" []⟩

/-- C6 (counterexample): when the pipeline fails, the handler emits the
`Error` frame but no terminal `Done` frame — for the concrete failing
request below the full frame list is exactly `[Error …]`, so the claimed
`Error`-then-`Done` sequence does not occur. -/
theorem C6_counterexample :
    (handleChatRequest
        (Except.error "planning failed (iteration 0): no more mock responses")
        [] []).2 =
      [Frame.error "planning failed (iteration 0): no more mock responses"] ∧
    Frame.done ∉
      (handleChatRequest
        (Except.error "planning failed (iteration 0): no more mock responses")
        [] []).2 := by
  decide

/-- C6 (amended): when the pipeline returns an error, the handler sends
exactly one `Error` frame, it is the final frame of the request, and no
`Done` frame is sent (the `Done` frame is sent only on the success path). -/
theorem C6_amended_error_frame_is_terminal (e : String) (events : List Event)
    (history : List Message) :
    ((handleChatRequest (Except.error e) events history).2.countP Frame.isError = 1) ∧
    ((handleChatRequest (Except.error e) events history).2.getLast? =
      some (Frame.error e)) ∧
    (Frame.done ∉ (handleChatRequest (Except.error e) events history).2) ∧
    ((handleChatRequest (Except.ok history) events history).2.getLast? =
      some Frame.done) := by
  have hclean := eventFrames_no_error_no_done events
  refine ⟨?_, ?_, ?_, ?_⟩
  · simp only [handleChatRequest, processChat, List.countP_append]
    have : (eventFrames events).countP Frame.isError = 0 := by
      rw [List.countP_eq_zero]
      intro f hf
      exact (by simpa using (hclean f hf).1)
    simp [this, Frame.isError, List.countP_cons]
  · simp [handleChatRequest, processChat]
  · simp only [handleChatRequest, processChat, List.mem_append]
    rintro (hf | hf)
    · exact absurd (hclean _ hf).2 (by simp [Frame.isDone])
    · simp at hf
  · simp [handleChatRequest, processChat]

/-- Closed instance of the amended C6 at a concrete failing request with one
streamed text event. -/
theorem C6_amended_error_frame_is_terminal_witness :
    ((handleChatRequest (Except.error "lm unreachable")
        [Event.text "partial" GoRole.assistant] []).2.countP Frame.isError = 1) ∧
    ((handleChatRequest (Except.error "lm unreachable")
        [Event.text "partial" GoRole.assistant] []).2.getLast? =
      some (Frame.error "lm unreachable")) ∧
    (Frame.done ∉ (handleChatRequest (Except.error "lm unreachable")
        [Event.text "partial" GoRole.assistant] []).2) ∧
    ((handleChatRequest (Except.ok [])
        [Event.text "partial" GoRole.assistant] []).2.getLast? =
      some Frame.done) :=
  C6_amended_error_frame_is_terminal "lm unreachable"
    [Event.text "partial" GoRole.assistant] []

/-- C7: on pipeline error the stored session history is exactly what it was
before the request; on pipeline success it is replaced with the history the
pipeline returned. -/
theorem C7_history_persisted_only_on_success (events : List Event)
    (history h : List Message) (e : String) :
    (handleChatRequest (Except.error e) events history).1 = history ∧
    (handleChatRequest (Except.ok h) events history).1 = h := by
  exact ⟨rfl, rfl⟩

/-- C2: every successful `Pipeline.Run` returns exactly
`opts.history ++ [user(userMessage), assistant(answer)]` where `answer` is
the synthesized text — nothing else is added, removed or reordered. -/
theorem C2_run_returns_extended_history (registry : List String)
    (exec : String → List (String × String) → GoResult)
    (plans : Nat → Except String Plan)
    (synth : List String × Except String String)
    (userMessage : String) (opts : RunOptions) (h : List Message)
    (events : List Event)
    (hrun : pipelineRun registry exec plans synth userMessage opts =
      (Except.ok h, events)) :
    ∃ answer, synth.2 = Except.ok answer ∧
      h = opts.history ++
        [{ role := "user", content := userMessage },
         { role := "assistant", content := answer }] := by
  unfold pipelineRun at hrun
  rcases hl : runLoop registry exec plans MaxIterations 0 [] [] with ⟨r, evs⟩
  rw [hl] at hrun
  cases r with
  | error e => simp at hrun
  | ok allResults =>
    cases hs : synth.2 with
    | error e =>
      rw [hs] at hrun
      simp at hrun
    | ok answer =>
      rw [hs] at hrun
      simp only [Prod.mk.injEq, Except.ok.injEq] at hrun
      exact ⟨answer, rfl, hrun.1.symm⟩

/-- Closed instance of C2: the `ready_to_answer` one-shot request returns the
two-message history delta. -/
theorem C2_run_returns_extended_history_witness :
    pipelineRun [] (fun _ _ => ("", none)) (fun _ => Except.ok readyPlan)
      (["The answer is 4."], Except.ok "The answer is 4.")
      "What is 2+2?" { history := [], context := "" } =
      (Except.ok [{ role := "user", content := "What is 2+2?" },
        { role := "assistant", content := "The answer is 4." }],
       [Event.planGenerated readyPlan,
        Event.text "The answer is 4." GoRole.assistant]) ∧
    (∃ answer,
      ((["The answer is 4."], Except.ok "The answer is 4.") :
        List String × Except String String).2 = Except.ok answer ∧
      ([{ role := "user", content := "What is 2+2?" },
        { role := "assistant", content := "The answer is 4." }] : List Message) =
        ({ history := [], context := "" } : RunOptions).history ++
          [{ role := "user", content := "What is 2+2?" },
           { role := "assistant", content := answer }]) :=
  ⟨by decide,
    C2_run_returns_extended_history [] (fun _ _ => ("", none))
      (fun _ => Except.ok readyPlan)
      (["The answer is 4."], Except.ok "The answer is 4.")
      "What is 2+2?" { history := [], context := "" }
      [{ role := "user", content := "What is 2+2?" },
       { role := "assistant", content := "The answer is 4." }]
      [Event.planGenerated readyPlan,
       Event.text "The answer is 4." GoRole.assistant]
      (by decide)⟩

theorem executeOrdered_planCount
    (exec : String → List (String × String) → GoResult) (l : List PlanStep) :
    ((executeOrdered exec l).2).countP Event.isPlanGenerated = 0 := by
  induction l with
  | nil => rfl
  | cons s rest ih =>
    simp only [executeOrdered, List.countP_cons, Event.isPlanGenerated]
    simpa using ih

theorem execute_planCount
    (exec : String → List (String × String) → GoResult) (plan : Plan) :
    ((execute exec plan).2).countP Event.isPlanGenerated = 0 := by
  unfold execute
  cases hx : executionOrder plan.steps with
  | error e => rfl
  | ok ordered => simpa using executeOrdered_planCount exec ordered

theorem runLoop_planCount (registry : List String)
    (exec : String → List (String × String) → GoResult)
    (plans : Nat → Except String Plan) (fuel : Nat) :
    ∀ (iteration : Nat) (acc : List StepResult) (events0 : List Event),
      ((runLoop registry exec plans fuel iteration acc events0).2).countP
          Event.isPlanGenerated ≤
        events0.countP Event.isPlanGenerated + fuel := by
  induction fuel with
  | zero => intro iteration acc events0; simp [runLoop]
  | succ fuel ih =>
    intro iteration acc events0
    rw [runLoop]
    cases hp : plans iteration with
    | error e => simp
    | ok plan =>
      dsimp only
      split
      · simp only [List.countP_append, List.countP_cons, Event.isPlanGenerated,
          List.countP_nil, if_true]
        omega
      · split
        · cases hv : validate registry plan with
          | some e =>
            simp only [List.countP_append, List.countP_cons, Event.isPlanGenerated,
              List.countP_nil, if_true]
            omega
          | none =>
            rcases hx : execute exec plan with ⟨r, evs⟩
            have hevs : evs.countP Event.isPlanGenerated = 0 := by
              have := execute_planCount exec plan
              rw [hx] at this
              exact this
            cases r with
            | error e =>
              simp only [List.countP_append, List.countP_cons,
                Event.isPlanGenerated, List.countP_nil, hevs, if_true]
              omega
            | ok results =>
              have := ih (iteration + 1) (acc ++ results)
                ((events0 ++ [Event.planGenerated plan]) ++ evs)
              simp only [List.countP_append, List.countP_cons,
                Event.isPlanGenerated, List.countP_nil, hevs, if_true] at this ⊢
              omega
        · have := ih (iteration + 1) acc (events0 ++ [Event.planGenerated plan])
          simp only [List.countP_append, List.countP_cons, Event.isPlanGenerated,
            List.countP_nil, if_true] at this ⊢
          omega

theorem runLoop_error_form (registry : List String)
    (exec : String → List (String × String) → GoResult)
    (plans : Nat → Except String Plan) (fuel : Nat) :
    ∀ (iteration : Nat) (acc : List StepResult) (events0 : List Event)
      (e : String) (events : List Event),
      runLoop registry exec plans fuel iteration acc events0 =
        (Except.error e, events) → PipelineErrorForm e := by
  induction fuel with
  | zero =>
    intro iteration acc events0 e events h
    simp [runLoop] at h
  | succ fuel ih =>
    intro iteration acc events0 e events h
    rw [runLoop] at h
    cases hp : plans iteration with
    | error msg =>
      rw [hp] at h
      simp only [Prod.mk.injEq, Except.error.injEq] at h
      exact Or.inl ⟨iteration, msg, h.1.symm⟩
    | ok plan =>
      rw [hp] at h
      dsimp only at h
      split at h
      · simp at h
      · split at h
        · cases hv : validate registry plan with
          | some msg =>
            rw [hv] at h
            simp only [Prod.mk.injEq, Except.error.injEq] at h
            exact Or.inr (Or.inl ⟨iteration, msg, h.1.symm⟩)
          | none =>
            rw [hv] at h
            rcases hx : execute exec plan with ⟨r, evs⟩
            rw [hx] at h
            cases r with
            | error msg =>
              simp only [Prod.mk.injEq, Except.error.injEq] at h
              exact Or.inr (Or.inr (Or.inl ⟨iteration, msg, h.1.symm⟩))
            | ok results => exact ih _ _ _ _ _ h
        · exact ih _ _ _ _ _ h

/-- C1 (amended): `Pipeline.Run` never fails with an
`iteration_limit_exceeded` error.  Every error it can return is a wrapped
planning, validation, execution or synthesis failure, and a run emits at
most `MaxIterations` (10) `PlanGenerated` events; when the cap is reached
without `ready_to_answer` the loop simply ends and the run proceeds to
synthesis (see the counterexample theorem for a full 10-iteration run that
succeeds). -/
theorem C1_amended_no_iteration_limit_error (registry : List String)
    (exec : String → List (String × String) → GoResult)
    (plans : Nat → Except String Plan)
    (synth : List String × Except String String)
    (userMessage : String) (opts : RunOptions) :
    (∀ (e : String) (events : List Event),
      pipelineRun registry exec plans synth userMessage opts =
        (Except.error e, events) → PipelineErrorForm e) ∧
    ((pipelineRun registry exec plans synth userMessage opts).2.countP
        Event.isPlanGenerated ≤ MaxIterations) := by
  constructor
  · intro e events h
    unfold pipelineRun at h
    rcases hl : runLoop registry exec plans MaxIterations 0 [] [] with ⟨r, evs⟩
    rw [hl] at h
    cases r with
    | error e' =>
      simp only [Prod.mk.injEq, Except.error.injEq] at h
      exact h.1 ▸ runLoop_error_form registry exec plans MaxIterations 0 [] [] e' evs hl
    | ok allResults =>
      cases hs : synth.2 with
      | error msg =>
        rw [hs] at h
        simp only [Prod.mk.injEq, Except.error.injEq] at h
        exact Or.inr (Or.inr (Or.inr ⟨msg, h.1.symm⟩))
      | ok answer =>
        rw [hs] at h
        simp at h
  · unfold pipelineRun
    rcases hl : runLoop registry exec plans MaxIterations 0 [] [] with ⟨r, evs⟩
    have hcount : evs.countP Event.isPlanGenerated ≤ MaxIterations := by
      have := runLoop_planCount registry exec plans MaxIterations 0 [] []
      rw [hl] at this
      simpa using this
    have htok : (synth.1.map (fun t => Event.text t GoRole.assistant)).countP
        Event.isPlanGenerated = 0 := by
      rw [List.countP_eq_zero]
      intro e he
      simp only [List.mem_map] at he
      obtain ⟨t, _, ht⟩ := he
      subst ht
      simp [Event.isPlanGenerated]
    cases r with
    | error e => simpa using hcount
    | ok allResults =>
      cases hs : synth.2 with
      | error msg =>
        simp only [List.countP_append, htok]
        omega
      | ok answer =>
        simp only [List.countP_append, htok]
        omega

/-- C1 (counterexample): a request whose plan never reports
`ready_to_answer` runs all 10 iterations (10 `PlanGenerated` events, each
iteration executing a real tool step, so the no-tools degenerate case is
excluded) and then *succeeds* via synthesis — `Pipeline.Run` does not fail
with `iteration_limit_exceeded`. -/
theorem C1_counterexample :
    (pipelineRun ["test_tool"] (fun _ _ => ("12:00 PM", none))
      (fun _ => Except.ok loopPlan)
      (["best effort"], Except.ok "best effort")
      "q" { history := [], context := "" }).1 =
      Except.ok [{ role := "user", content := "q" },
        { role := "assistant", content := "best effort" }] ∧
    (pipelineRun ["test_tool"] (fun _ _ => ("12:00 PM", none))
      (fun _ => Except.ok loopPlan)
      (["best effort"], Except.ok "best effort")
      "q" { history := [], context := "" }).2.countP
        Event.isPlanGenerated = 10 := by
  constructor
  · decide
  · decide

/-- Closed instance of the amended C1 at the same fully-iterating input. -/
theorem C1_amended_no_iteration_limit_error_witness :
    (∀ (e : String) (events : List Event),
      pipelineRun ["test_tool"] (fun _ _ => ("12:00 PM", none))
        (fun _ => Except.ok loopPlan)
        (["best effort"], Except.ok "best effort")
        "q" { history := [], context := "" } =
          (Except.error e, events) → PipelineErrorForm e) ∧
    ((pipelineRun ["test_tool"] (fun _ _ => ("12:00 PM", none))
      (fun _ => Except.ok loopPlan)
      (["best effort"], Except.ok "best effort")
      "q" { history := [], context := "" }).2.countP
        Event.isPlanGenerated ≤ MaxIterations) :=
  C1_amended_no_iteration_limit_error ["test_tool"] (fun _ _ => ("12:00 PM", none))
    (fun _ => Except.ok loopPlan)
    (["best effort"], Except.ok "best effort")
    "q" { history := [], context := "" }

theorem executeOrdered_length
    (exec : String → List (String × String) → GoResult) (l : List PlanStep) :
    (executeOrdered exec l).1.length = l.length := by
  induction l with
  | nil => rfl
  | cons s rest ih => simpa [executeOrdered] using ih

theorem executeOrdered_failed_step
    (exec : String → List (String × String) → GoResult) (l : List PlanStep)
    (step : PlanStep) (hmem : step ∈ l) (out0 m : String)
    (hfail : exec step.tool step.argsMap = (out0, some m)) :
    ({ stepID := step.id, tool := step.tool, purpose := step.purpose,
       output := "Error: " ++ m, success := false, error := m } : StepResult)
        ∈ (executeOrdered exec l).1 ∧
    Event.toolResult step.id step.tool ("Error: " ++ m) false
        ∈ (executeOrdered exec l).2 := by
  induction l with
  | nil => simp at hmem
  | cons s rest ih =>
    rcases List.mem_cons.mp hmem with heq | htail
    · subst heq
      constructor
      · simp only [executeOrdered, hfail, List.mem_cons]
        left
        rfl
      · simp only [executeOrdered, hfail, List.mem_cons]
        right; right; left
        rfl
    · obtain ⟨h1, h2⟩ := ih htail
      constructor
      · simp only [executeOrdered, List.mem_cons]
        right
        exact h1
      · simp only [executeOrdered, List.mem_cons]
        right; right; right
        exact h2

/-- C4: a failing tool execution is recovered locally.  If a step of an
ordered plan fails with message `m`, the pipeline records
`StepResult{output = "Error: " + m, success = false, error = m}`, emits a
`ToolResult` event with `success = false`, still executes every step of the
iteration (result count = step count), `execute` itself succeeds, and a
request whose first iteration contains the failing step still reaches
synthesis and returns the synthesized history. -/
theorem C4_tool_failure_recovered_locally (registry : List String)
    (exec : String → List (String × String) → GoResult) (plan : Plan)
    (ordered : List PlanStep)
    (hord : executionOrder plan.steps = Except.ok ordered)
    (step : PlanStep) (hmem : step ∈ ordered) (out0 m : String)
    (hfail : exec step.tool step.argsMap = (out0, some m))
    (hready : plan.readyToAnswer = false) (hneeds : plan.needsTools = true)
    (hsteps : plan.steps.length > 0) (hvalid : validate registry plan = none) :
    ({ stepID := step.id, tool := step.tool, purpose := step.purpose,
       output := "Error: " ++ m, success := false, error := m } : StepResult)
        ∈ (executeOrdered exec ordered).1 ∧
    Event.toolResult step.id step.tool ("Error: " ++ m) false
        ∈ (executeOrdered exec ordered).2 ∧
    (executeOrdered exec ordered).1.length = ordered.length ∧
    execute exec plan =
      (Except.ok (executeOrdered exec ordered).1, (executeOrdered exec ordered).2) ∧
    (∀ (toks : List String) (answer userMessage : String) (opts : RunOptions),
      (pipelineRun registry exec
        (fun i => if i = 0 then Except.ok plan else Except.ok readyToolPlan)
        (toks, Except.ok answer) userMessage opts).1 =
      Except.ok (opts.history ++
        [{ role := "user", content := userMessage },
         { role := "assistant", content := answer }])) := by
  obtain ⟨h1, h2⟩ := executeOrdered_failed_step exec ordered step hmem out0 m hfail
  have hex : execute exec plan =
      (Except.ok (executeOrdered exec ordered).1, (executeOrdered exec ordered).2) := by
    unfold execute
    rw [hord]
  refine ⟨h1, h2, executeOrdered_length exec ordered, hex, ?_⟩
  intro toks answer userMessage opts
  have hloop : runLoop registry exec
      (fun i => if i = 0 then Except.ok plan else Except.ok readyToolPlan)
      MaxIterations 0 [] [] =
      runLoop registry exec
        (fun i => if i = 0 then Except.ok plan else Except.ok readyToolPlan)
        (MaxIterations - 1) 1 ([] ++ (executeOrdered exec ordered).1)
        (([] ++ [Event.planGenerated plan]) ++ (executeOrdered exec ordered).2) := by
    show runLoop _ _ _ (9 + 1) 0 [] [] = _
    rw [runLoop]
    have hcond1 : (plan.readyToAnswer ||
        (!plan.needsTools && decide (plan.steps.length = 0))) = false := by
      rw [hready, hneeds]
      simp
    have hcond2 : (plan.needsTools && decide (plan.steps.length > 0)) = true := by
      rw [hneeds]
      simpa using hsteps
    have hne : ¬((plan.readyToAnswer ||
        (!plan.needsTools && decide (plan.steps.length = 0))) = true) := by
      rw [hcond1]
      decide
    have hp0 : (if (0 : Nat) = 0 then (Except.ok plan : Except String Plan)
        else Except.ok readyToolPlan) = Except.ok plan := if_pos rfl
    rw [hp0]
    dsimp only
    rw [if_neg hne, if_pos hcond2, hvalid, hex]
    rfl
  have hloop2 : runLoop registry exec
      (fun i => if i = 0 then Except.ok plan else Except.ok readyToolPlan)
      (MaxIterations - 1) 1 ([] ++ (executeOrdered exec ordered).1)
      (([] ++ [Event.planGenerated plan]) ++ (executeOrdered exec ordered).2) =
      (Except.ok ([] ++ (executeOrdered exec ordered).1),
       (([] ++ [Event.planGenerated plan]) ++ (executeOrdered exec ordered).2) ++
         [Event.planGenerated readyToolPlan]) := by
    show runLoop _ _ _ (8 + 1) 1 _ _ = _
    rw [runLoop]
    simp [readyToolPlan]
  unfold pipelineRun
  rw [hloop, hloop2]

/-- Closed instance of C4 (scenario S6): the `failing_tool` step fails with
`"tool failed"`, the failure is recorded and streamed, and the request still
synthesizes. -/
theorem C4_tool_failure_recovered_locally_witness :
    ({ stepID := "step_1", tool := "failing_tool", purpose := "Do something",
       output := "Error: tool failed", success := false,
       error := "tool failed" } : StepResult)
        ∈ (executeOrdered
            (fun t _ => if t = "failing_tool" then ("", some "tool failed")
              else ("", none)) failPlan.steps).1 ∧
    Event.toolResult "step_1" "failing_tool" ("Error: " ++ "tool failed") false
        ∈ (executeOrdered
            (fun t _ => if t = "failing_tool" then ("", some "tool failed")
              else ("", none)) failPlan.steps).2 ∧
    (executeOrdered
        (fun t _ => if t = "failing_tool" then ("", some "tool failed")
          else ("", none)) failPlan.steps).1.length = failPlan.steps.length ∧
    execute
        (fun t _ => if t = "failing_tool" then ("", some "tool failed")
          else ("", none)) failPlan =
      (Except.ok (executeOrdered
          (fun t _ => if t = "failing_tool" then ("", some "tool failed")
            else ("", none)) failPlan.steps).1,
       (executeOrdered
          (fun t _ => if t = "failing_tool" then ("", some "tool failed")
            else ("", none)) failPlan.steps).2) ∧
    (∀ (toks : List String) (answer userMessage : String) (opts : RunOptions),
      (pipelineRun ["failing_tool"]
        (fun t _ => if t = "failing_tool" then ("", some "tool failed")
          else ("", none))
        (fun i => if i = 0 then Except.ok failPlan else Except.ok readyToolPlan)
        (toks, Except.ok answer) userMessage opts).1 =
      Except.ok (opts.history ++
        [{ role := "user", content := userMessage },
         { role := "assistant", content := answer }])) := by
  have h := C4_tool_failure_recovered_locally ["failing_tool"]
    (fun t _ => if t = "failing_tool" then ("", some "tool failed")
      else ("", none)) failPlan failPlan.steps (by decide)
    { id := "step_1", dependsOn := "", tool := "failing_tool",
      purpose := "Do something", args := [] }
    (by decide) "" "tool failed" (by decide) (by decide) (by decide)
    (by decide) (by decide)
  exact h

/-- C5: the shell tool never spawns a process for a command containing a
banned metacharacter sequence: `Execute` returns the disallowed-pattern
error of the first matching pattern, leaves the help cache untouched, and
hands nothing to the subprocess runner (and consults no discovery oracle,
since validation fails first). -/
theorem C5_metacharacters_never_executed (settings : Settings)
    (externalTools : List ExternalTool) (discoverExternal : ExternalTool → String)
    (discoverOther : String → String) (runner : String → RunOutcome)
    (helpCache : List (String × String)) (args : List (String × GoVal))
    (command p : String)
    (hcmd : args.lookup "command" = some (GoVal.str command))
    (hp : p ∈ dangerousPatterns) (hcont : goContains command p = true) :
    ∃ q, q ∈ dangerousPatterns ∧ goContains command q = true ∧
      shellExecute settings externalTools discoverExternal discoverOther runner
        helpCache args =
      (("", some ("command contains disallowed pattern: " ++ q)), helpCache, []) := by
  have hsome : (dangerousPatterns.find?
      (fun pattern => goContains command pattern)).isSome := by
    rw [List.find?_isSome]
    exact ⟨p, hp, hcont⟩
  rw [Option.isSome_iff_exists] at hsome
  obtain ⟨q, hq⟩ := hsome
  refine ⟨q, List.mem_of_find?_eq_some hq, by simpa using List.find?_some hq, ?_⟩
  have hv : validateCommand settings externalTools command =
      some ("command contains disallowed pattern: " ++ q) := by
    unfold validateCommand
    rw [hq]
  unfold shellExecute
  rw [hcmd]
  dsimp only
  rw [hv]

/-- Closed instance of C5 (scenario S7): `echo hi && rm -rf /` is rejected
with the disallowed-pattern error before any spawn even though `echo` is
allowlisted. -/
theorem C5_metacharacters_never_executed_witness :
    ([("command", GoVal.str "echo hi && rm -rf /")].lookup "command" =
      some (GoVal.str "echo hi && rm -rf /")) ∧
    ("&&" ∈ dangerousPatterns) ∧
    (goContains "echo hi && rm -rf /" "&&" = true) ∧
    (∃ q, q ∈ dangerousPatterns ∧ goContains "echo hi && rm -rf /" q = true ∧
      shellExecute { shell := { enabled := true, allowlist := ["echo"] } } []
        (fun _ => "") (fun _ => "") (fun _ =>
          { stdout := "", stderr := "", cmdErr := none, timedOut := false }) []
        [("command", GoVal.str "echo hi && rm -rf /")] =
      (("", some ("command contains disallowed pattern: " ++ q)), [], [])) :=
  ⟨by decide, by decide, by decide,
    C5_metacharacters_never_executed
      { shell := { enabled := true, allowlist := ["echo"] } } []
      (fun _ => "") (fun _ => "")
      (fun _ => { stdout := "", stderr := "", cmdErr := none, timedOut := false })
      [] [("command", GoVal.str "echo hi && rm -rf /")]
      "echo hi && rm -rf /" "&&" (by decide) (by decide) (by decide)⟩

theorem shellExecute_reduce (settings : Settings)
    (externalTools : List ExternalTool) (discoverExternal : ExternalTool → String)
    (discoverOther : String → String) (runner : String → RunOutcome)
    (helpCache : List (String × String)) (args : List (String × GoVal))
    (command : String)
    (hcmd : args.lookup "command" = some (GoVal.str command))
    (hval : validateCommand settings externalTools command = none) :
    shellExecute settings externalTools discoverExternal discoverOther runner
      helpCache args =
    (let disc := runToolDiscoveryIfNeeded externalTools discoverExternal
        discoverOther helpCache command
     let oc := runner command
     let output := mergeOutput oc.stdout oc.stderr
     if oc.timedOut then
       ((output, some "command timed out after 30s"), disc.2, [command])
     else
       let output :=
         if disc.1 ≠ "" then disc.1 ++ "\n---\nCommand output:\n" ++ output
         else output
       match oc.cmdErr with
       | some e => ((output, some ("command failed: " ++ e)), disc.2, [command])
       | none => ((output, none), disc.2, [command])) := by
  unfold shellExecute
  rw [hcmd]
  dsimp only
  rw [hval]

theorem runToolDiscovery_reduce (externalTools : List ExternalTool)
    (discoverExternal : ExternalTool → String) (discoverOther : String → String)
    (helpCache : List (String × String)) (command baseCmd : String)
    (restFields : List String)
    (hfields : goFields command = baseCmd :: restFields) :
    runToolDiscoveryIfNeeded externalTools discoverExternal discoverOther
      helpCache command =
    (if wellKnownCommands.contains baseCmd then ("", helpCache)
     else if (helpCache.lookup baseCmd).isSome then ("", helpCache)
     else
       let discoveryText :=
         match externalTools.find?
           (fun ext => ext.access.type = "shell" && ext.access.command = baseCmd) with
         | some ext => discoverExternal ext
         | none => discoverOther baseCmd
       (discoveryText, upsert helpCache baseCmd discoveryText)) := by
  unfold runToolDiscoveryIfNeeded
  rw [hfields]

/-- C9 (amended): for an allowed command whose base command is well known or
already help-cached, `ShellTool.Execute` returns exactly the merged
stdout/stderr of the spawned process and leaves the cache unchanged.  On the
first execution of any other allowed command the discovery report for the
base command is computed and cached (even when empty), and — when it is
non-empty and the run does not time out — it is prepended to the command
output separated by `"---\nCommand output:\n"`; because the base command is
then cached, subsequent executions return the unmodified output. -/
theorem C9_amended_discovery_prepend_and_cache (settings : Settings)
    (externalTools : List ExternalTool) (discoverExternal : ExternalTool → String)
    (discoverOther : String → String) (runner : String → RunOutcome)
    (helpCache : List (String × String)) (args : List (String × GoVal))
    (command baseCmd : String) (restFields : List String)
    (hcmd : args.lookup "command" = some (GoVal.str command))
    (hval : validateCommand settings externalTools command = none)
    (hfields : goFields command = baseCmd :: restFields) :
    ((wellKnownCommands.contains baseCmd = true ∨
        (helpCache.lookup baseCmd).isSome = true) →
      (shellExecute settings externalTools discoverExternal discoverOther runner
          helpCache args).1.1 =
        mergeOutput (runner command).stdout (runner command).stderr ∧
      (shellExecute settings externalTools discoverExternal discoverOther runner
          helpCache args).2.1 = helpCache) ∧
    (∀ dtext,
      wellKnownCommands.contains baseCmd = false →
      helpCache.lookup baseCmd = none →
      dtext = (match externalTools.find?
          (fun ext => ext.access.type = "shell" && ext.access.command = baseCmd) with
        | some ext => discoverExternal ext
        | none => discoverOther baseCmd) →
      (shellExecute settings externalTools discoverExternal discoverOther runner
          helpCache args).2.1 = upsert helpCache baseCmd dtext ∧
      ((runner command).timedOut = false → dtext ≠ "" →
        (shellExecute settings externalTools discoverExternal discoverOther runner
            helpCache args).1.1 =
          dtext ++ "\n---\nCommand output:\n" ++
            mergeOutput (runner command).stdout (runner command).stderr)) := by
  rw [shellExecute_reduce settings externalTools discoverExternal discoverOther
    runner helpCache args command hcmd hval]
  rw [runToolDiscovery_reduce externalTools discoverExternal discoverOther
    helpCache command baseCmd restFields hfields]
  constructor
  · intro hknown
    have hdisc : (if wellKnownCommands.contains baseCmd then ("", helpCache)
        else if (helpCache.lookup baseCmd).isSome then ("", helpCache)
        else
          let discoveryText :=
            match externalTools.find?
              (fun ext => ext.access.type = "shell" && ext.access.command = baseCmd) with
            | some ext => discoverExternal ext
            | none => discoverOther baseCmd
          (discoveryText, upsert helpCache baseCmd discoveryText)) =
        ("", helpCache) := by
      rcases hknown with hk | hk
      · rw [if_pos hk]
      · by_cases hw : wellKnownCommands.contains baseCmd
        · rw [if_pos hw]
        · rw [if_neg hw, if_pos hk]
    rw [hdisc]
    dsimp only
    cases hto : (runner command).timedOut
    · cases hce : (runner command).cmdErr <;> simp
    · simp
  · intro dtext hwk hcache hdef
    have hne1 : ¬(wellKnownCommands.contains baseCmd = true) := by
      rw [hwk]
      exact Bool.false_ne_true
    have hne2 : ¬((helpCache.lookup baseCmd).isSome = true) := by
      rw [hcache]
      simp
    rw [if_neg hne1, if_neg hne2]
    rw [← hdef]
    dsimp only
    constructor
    · split
      · rfl
      · split <;> rfl
    · intro hto hne
      have hnto : ¬((runner command).timedOut = true) := by
        rw [hto]
        exact Bool.false_ne_true
      rw [if_neg hnto]
      split <;> rw [if_pos hne]

/-- C9 (counterexample): `mycli` is allowlisted and not well known; on its
first execution the discovery routine finds no help and returns the empty
report (as `discoverCommand` does when `fetchSingleHelp` yields nothing), so
the output is returned *without* the claimed prepended report and separator —
yet the base command is still cached. -/
theorem C9_counterexample :
    shellExecute { shell := { enabled := true, allowlist := ["mycli"] } } []
      (fun _ => "") (fun _ => "")
      (fun _ => { stdout := "out", stderr := "", cmdErr := none, timedOut := false })
      [] [("command", GoVal.str "mycli --version")] =
      (("out", none), [("mycli", "")], ["mycli --version"]) ∧
    goContains "out" "---\nCommand output:\n" = false := by
  constructor
  · decide
  · decide

/-- Closed instance of the amended C9: first use of the external tool `tfl`
prepends its non-empty discovery report and caches it; the implications of
part (a) hold vacuously at the same input. -/
theorem C9_amended_discovery_prepend_and_cache_witness :
    (((wellKnownCommands.contains "tfl" = true ∨
        (([] : List (String × String)).lookup "tfl").isSome = true) →
      (shellExecute { shell := { enabled := true, allowlist := [] } } [tflTool]
          (fun _ => "HELP") (fun _ => "") (fun _ => goodServiceOutcome) []
          [("command", GoVal.str "tfl status")]).1.1 =
        mergeOutput goodServiceOutcome.stdout goodServiceOutcome.stderr ∧
      (shellExecute { shell := { enabled := true, allowlist := [] } } [tflTool]
          (fun _ => "HELP") (fun _ => "") (fun _ => goodServiceOutcome) []
          [("command", GoVal.str "tfl status")]).2.1 = []) ∧
    (∀ dtext,
      wellKnownCommands.contains "tfl" = false →
      ([] : List (String × String)).lookup "tfl" = none →
      dtext = (match [tflTool].find?
          (fun ext => ext.access.type = "shell" && ext.access.command = "tfl") with
        | some ext => (fun (_ : ExternalTool) => "HELP") ext
        | none => (fun (_ : String) => "") "tfl") →
      (shellExecute { shell := { enabled := true, allowlist := [] } } [tflTool]
          (fun _ => "HELP") (fun _ => "") (fun _ => goodServiceOutcome) []
          [("command", GoVal.str "tfl status")]).2.1 =
        upsert [] "tfl" dtext ∧
      (((fun (_ : String) => goodServiceOutcome) "tfl status").timedOut = false →
          dtext ≠ "" →
        (shellExecute { shell := { enabled := true, allowlist := [] } } [tflTool]
            (fun _ => "HELP") (fun _ => "") (fun _ => goodServiceOutcome) []
            [("command", GoVal.str "tfl status")]).1.1 =
          dtext ++ "\n---\nCommand output:\n" ++
            mergeOutput goodServiceOutcome.stdout goodServiceOutcome.stderr))) :=
  C9_amended_discovery_prepend_and_cache
    { shell := { enabled := true, allowlist := [] } } [tflTool]
    (fun _ => "HELP") (fun _ => "") (fun _ => goodServiceOutcome) []
    [("command", GoVal.str "tfl status")] "tfl status" "tfl" ["status"]
    (by decide) (by decide) (by decide)

/-- C8: when help text was obtained but the LM response parses neither as a
whole JSON object nor via the first-`\x7b`-to-last-`\x7d` substring,
`get_command_schema`'s `Execute` returns a nil error together with the raw
help text wrapped in a markdown code block behind an explanatory prefix —
the LM failure is never surfaced as a hard error. -/
theorem C8_schema_soft_fallback {σ : Type} (settings : Settings)
    (jsonParse : String → Option σ)
    (chat : String → String → Except String String)
    (helpRaw : String → String → String)
    (formatSchema : String → String → σ → String → String)
    (args : List (String × GoVal)) (command subcommand helpText response : String)
    (hcmd : args.lookup "command" = some (GoVal.str command))
    (hsub : args.lookup "subcommand" = some (GoVal.str subcommand))
    (hallow : schemaIsCommandAllowed settings command = true)
    (hhelp : getHelpText (helpRaw command subcommand) = Except.ok helpText)
    (hchat : chat schemaSystemPrompt
      ("Convert this help text for `" ++
        (if subcommand ≠ "" then command ++ " " ++ subcommand else command) ++
        "` into a JSON schema:\n\n```\n" ++ helpText ++ "\n```") =
      Except.ok response)
    (hp1 : jsonParse (goTrimSpace response) = none)
    (hp2 : ∀ s t, firstBraceIdx (goTrimSpace response) = some s →
      lastBraceIdx (goTrimSpace response) = some t →
      jsonParse (goSlice (goTrimSpace response) s (t + 1)) = none) :
    ∃ emsg,
      getCommandSchemaExecute settings jsonParse (some chat) helpRaw formatSchema
        args =
      ("# " ++ command ++ " Help\n\nCould not generate schema: " ++ emsg ++
        "\n\nRaw help:\n```\n" ++ helpText ++ "\n```", none) := by
  have hgen : ∃ emsg,
      generateSchema jsonParse (some chat) command subcommand helpText =
        Except.error emsg := by
    unfold generateSchema
    dsimp only
    rw [hchat]
    dsimp only
    rw [hp1]
    cases hf : firstBraceIdx (goTrimSpace response) with
    | none => exact ⟨"no JSON found in LLM response", rfl⟩
    | some s =>
      cases hl : lastBraceIdx (goTrimSpace response) with
      | none => exact ⟨"no JSON found in LLM response", rfl⟩
      | some t =>
        dsimp only
        by_cases hgt : t > s
        · rw [if_pos hgt, hp2 s t hf hl]
          exact ⟨"failed to parse LLM response as JSON", rfl⟩
        · rw [if_neg hgt]
          exact ⟨"no JSON found in LLM response", rfl⟩
  obtain ⟨emsg, hgen⟩ := hgen
  refine ⟨emsg, ?_⟩
  unfold getCommandSchemaExecute
  rw [hcmd]
  dsimp only
  rw [hsub]
  dsimp only
  rw [hallow]
  rw [if_neg (show ¬((!true) = true) by decide)]
  rw [hhelp]
  dsimp only
  rw [hgen]

/-- Closed instance of C8: the LM answers prose with no braces; `Execute`
still succeeds and returns the raw `ls --help` text in a code block. -/
theorem C8_schema_soft_fallback_witness :
    ∃ emsg,
      getCommandSchemaExecute { shell := { enabled := true, allowlist := ["ls"] } }
        (fun (_ : String) => (none : Option Unit))
        (some (fun _ _ => Except.ok "sorry, I cannot produce JSON"))
        (fun _ _ => "Usage: ls [OPTION]... [FILE]...")
        (fun _ _ _ _ => "")
        [("command", GoVal.str "ls"), ("subcommand", GoVal.str "")] =
      ("# " ++ "ls" ++ " Help\n\nCould not generate schema: " ++ emsg ++
        "\n\nRaw help:\n```\n" ++ "Usage: ls [OPTION]... [FILE]..." ++ "\n```",
        none) :=
  C8_schema_soft_fallback { shell := { enabled := true, allowlist := ["ls"] } }
    (fun (_ : String) => (none : Option Unit))
    (fun _ _ => Except.ok "sorry, I cannot produce JSON")
    (fun _ _ => "Usage: ls [OPTION]... [FILE]...")
    (fun _ _ _ _ => "")
    [("command", GoVal.str "ls"), ("subcommand", GoVal.str "")]
    "ls" "" "Usage: ls [OPTION]... [FILE]..." "sorry, I cannot produce JSON"
    (by decide) (by decide) (by decide) (by decide) (by decide)
    (by decide)
    (fun s t hs ht => by
      rw [show firstBraceIdx (goTrimSpace "sorry, I cannot produce JSON") = none from
        by decide] at hs)

/-! ### Kahn-loop correctness (claim C3) -/

theorem lookupD_upsert {α : Type} (m : List (String × α)) (k q : String)
    (v d : α) :
    lookupD (upsert m k v) q d = if q = k then v else lookupD m q d := by
  induction m with
  | nil =>
    simp only [upsert, lookupD]
    by_cases h : q = k
    · rw [if_pos h.symm, if_pos h]
    · rw [if_neg (fun hh => h hh.symm), if_neg h]
  | cons p rest ih =>
    obtain ⟨k', v'⟩ := p
    simp only [upsert]
    by_cases h1 : k' = k
    · rw [if_pos h1]
      simp only [lookupD]
      by_cases h2 : q = k
      · rw [if_pos h2.symm, if_pos h2]
      · rw [if_neg (fun hh => h2 hh.symm), if_neg h2,
          if_neg (fun hh => h2 ((h1.symm.trans hh).symm))]
    · rw [if_neg h1]
      simp only [lookupD]
      by_cases h3 : k' = q
      · rw [if_pos h3, if_pos h3, if_neg (fun hq => h1 (h3.trans hq))]
      · rw [if_neg h3, if_neg h3, ih]

theorem keys_append {α : Type} (m₁ m₂ : List (String × α)) :
    keys (m₁ ++ m₂) = keys m₁ ++ keys m₂ := by
  simp [keys]

theorem upsert_fresh {α : Type} (m : List (String × α)) (k : String) (v : α)
    (h : k ∉ keys m) : upsert m k v = m ++ [(k, v)] := by
  induction m with
  | nil => rfl
  | cons p rest ih =>
    obtain ⟨k', v'⟩ := p
    simp only [keys, List.map_cons, List.mem_cons] at h
    push_neg at h
    simp only [upsert]
    rw [if_neg (fun hh => h.1 hh.symm), ih (by simpa [keys] using h.2)]
    rfl

theorem foldl_upsert_fresh {α : Type} (f : PlanStep → α) :
    ∀ (l : List PlanStep) (acc : List (String × α)),
      (∀ s ∈ l, s.id ∉ keys acc) → (l.map PlanStep.id).Nodup →
      l.foldl (fun m s => upsert m s.id (f s)) acc =
        acc ++ l.map (fun s => (s.id, f s)) := by
  intro l
  induction l with
  | nil => intro acc _ _; simp
  | cons s rest ih =>
    intro acc hfresh hnd
    simp only [List.foldl_cons]
    rw [upsert_fresh acc s.id (f s) (hfresh s (List.mem_cons_self s rest))]
    rw [ih (acc ++ [(s.id, f s)]) ?hfresh ?hnd]
    · simp
    case hfresh =>
      intro t ht
      rw [keys_append]
      simp only [List.mem_append]
      push_neg
      refine ⟨hfresh t (List.mem_cons_of_mem s ht), ?_⟩
      simp only [List.map_cons, List.nodup_cons] at hnd
      have : t.id ∈ rest.map PlanStep.id := List.mem_map_of_mem PlanStep.id ht
      intro hc
      simp only [keys, List.map_cons, List.map_nil, List.mem_singleton] at hc
      exact hnd.1 (hc ▸ this)
    case hnd =>
      simp only [List.map_cons, List.nodup_cons] at hnd
      exact hnd.2

theorem buildStepMap_char (steps : List PlanStep)
    (hnd : (steps.map PlanStep.id).Nodup) :
    buildStepMap steps = steps.map (fun s => (s.id, s)) := by
  unfold buildStepMap
  simpa using foldl_upsert_fresh (fun s => s) steps [] (by simp [keys]) hnd

theorem lookupD_map_self {α : Type} (f : PlanStep → α) (d : α) :
    ∀ (l : List PlanStep), (l.map PlanStep.id).Nodup →
      ∀ s ∈ l, lookupD (l.map (fun t => (t.id, f t))) s.id d = f s := by
  intro l
  induction l with
  | nil => intro _ s hs; simp at hs
  | cons h rest ih =>
    intro hnd s hs
    simp only [List.map_cons, lookupD]
    simp only [List.map_cons, List.nodup_cons] at hnd
    rcases List.mem_cons.mp hs with heq | htail
    · subst heq
      rw [if_pos rfl]
    · by_cases hid : h.id = s.id
      · exact absurd (hid ▸ List.mem_map_of_mem PlanStep.id htail) hnd.1
      · rw [if_neg hid]
        exact ih hnd.2 s htail

theorem lookupD_map_not_mem {α : Type} (f : PlanStep → α) (d : α)
    (l : List PlanStep) (c : String) (hc : c ∉ l.map PlanStep.id) :
    lookupD (l.map (fun t => (t.id, f t))) c d = d := by
  induction l with
  | nil => rfl
  | cons h rest ih =>
    simp only [List.map_cons, List.mem_cons] at hc
    push_neg at hc
    simp only [List.map_cons, lookupD]
    rw [if_neg (fun hh => hc.1 hh.symm)]
    exact ih hc.2

theorem lookup_map_self (l : List PlanStep) (hnd : (l.map PlanStep.id).Nodup) :
    ∀ s ∈ l, (l.map (fun t => (t.id, t))).lookup s.id = some s := by
  induction l with
  | nil => intro s hs; simp at hs
  | cons h rest ih =>
    intro s hs
    simp only [List.map_cons, List.nodup_cons] at hnd
    simp only [List.map_cons, List.lookup]
    rcases List.mem_cons.mp hs with heq | htail
    · subst heq
      simp
    · by_cases hid : h.id = s.id
      · exact absurd (hid ▸ List.mem_map_of_mem PlanStep.id htail) hnd.1
      · have hbeq : (s.id == h.id) = false := by
          simp only [beq_eq_false_iff_ne, ne_eq]
          exact fun hh => hid hh.symm
        rw [hbeq]
        exact ih hnd.2 s htail

theorem id_injective (steps : List PlanStep)
    (hnd : (steps.map PlanStep.id).Nodup) :
    ∀ r ∈ steps, ∀ s ∈ steps, r.id = s.id → r = s := by
  induction steps with
  | nil => intro r hr; simp at hr
  | cons h rest ih =>
    intro r hr s hs hid
    simp only [List.map_cons, List.nodup_cons] at hnd
    rcases List.mem_cons.mp hr with hr1 | hr2 <;>
      rcases List.mem_cons.mp hs with hs1 | hs2
    · rw [hr1, hs1]
    · subst hr1
      exact absurd (hid ▸ List.mem_map_of_mem PlanStep.id hs2) hnd.1
    · subst hs1
      exact absurd (hid ▸ List.mem_map_of_mem PlanStep.id hr2) (by
        rw [← hid] at hnd ⊢
        exact hnd.1)
    · exact ih hnd.2 r hr2 s hs2 hid

theorem upsert_map_incr (steps : List PlanStep)
    (hnd : (steps.map PlanStep.id).Nodup) (φ : PlanStep → Int) (x : PlanStep)
    (hx : x ∈ steps) (v : Int) :
    upsert (steps.map (fun t => (t.id, φ t))) x.id v =
      steps.map (fun t => (t.id, if t.id = x.id then v else φ t)) := by
  induction steps with
  | nil => simp at hx
  | cons h rest ih =>
    simp only [List.map_cons, List.nodup_cons] at hnd
    simp only [List.map_cons, upsert]
    by_cases hid : h.id = x.id
    · rw [if_pos hid]
      have hrest : rest.map (fun t => (t.id, if t.id = x.id then v else φ t)) =
          rest.map (fun t => (t.id, φ t)) := by
        apply List.map_congr_left
        intro t ht
        have : t.id ≠ x.id := by
          intro hc
          exact hnd.1 ((hid.trans hc.symm) ▸ List.mem_map_of_mem PlanStep.id ht)
        simp [this]
      rw [hrest]
      simp [hid]
    · rw [if_neg hid]
      have hxrest : x ∈ rest := by
        rcases List.mem_cons.mp hx with h1 | h2
        · exact absurd (congrArg PlanStep.id h1.symm) hid
        · exact h2
      rw [ih hnd.2 hxrest]
      simp [hid]

theorem addDeg_fold_char (steps : List PlanStep)
    (hnd : (steps.map PlanStep.id).Nodup) :
    ∀ (l : List PlanStep) (φ : PlanStep → Int), (∀ x ∈ l, x ∈ steps) →
      l.foldl
        (fun m s =>
          if s.dependsOn ≠ "" then upsert m s.id (lookupD m s.id 0 + 1) else m)
        (steps.map (fun t => (t.id, φ t))) =
      steps.map (fun t => (t.id, φ t +
        ((l.filter (fun x => x.dependsOn ≠ "" && x.id == t.id)).length : Int))) := by
  intro l
  induction l with
  | nil =>
    intro φ _
    simp
  | cons x l' ih =>
    intro φ hsub
    have hx : x ∈ steps := hsub x (List.mem_cons_self x l')
    simp only [List.foldl_cons]
    by_cases hdep : x.dependsOn = ""
    · rw [if_neg (by simp [hdep])]
      rw [ih φ (fun t ht => hsub t (List.mem_cons_of_mem x ht))]
      apply List.map_congr_left
      intro t _
      simp [List.filter_cons, hdep]
    · rw [if_pos (by simpa using hdep)]
      rw [lookupD_map_self φ 0 steps hnd x hx]
      rw [upsert_map_incr steps hnd φ x hx (φ x + 1)]
      have hswitch : steps.map (fun t => (t.id, if t.id = x.id then φ x + 1 else φ t)) =
          steps.map (fun t => (t.id, (fun u => if u.id = x.id then φ u + 1 else φ u) t)) := by
        apply List.map_congr_left
        intro t ht
        by_cases hid : t.id = x.id
        · have : t = x := id_injective steps hnd t ht x hx hid
          simp [hid, this]
        · simp [hid]
      rw [hswitch]
      rw [ih (fun u => if u.id = x.id then φ u + 1 else φ u)
        (fun t ht => hsub t (List.mem_cons_of_mem x ht))]
      apply List.map_congr_left
      intro t _
      have hcond : (x.dependsOn ≠ "" && x.id == t.id) = (x.id == t.id) := by
        simp [hdep]
      simp only [List.filter_cons, hcond]
      by_cases hid : t.id = x.id
      · have hbeq : (x.id == t.id) = true := by simp [hid]
        rw [if_pos hbeq, if_pos hid]
        simp only [List.length_cons, Prod.mk.injEq, true_and]
        push_cast
        ring
      · have hbeq : (x.id == t.id) = false := by
          simp only [beq_eq_false_iff_ne, ne_eq]
          exact fun hh => hid hh.symm
        simp only [hbeq, Bool.false_eq_true, if_false, if_neg hid]

theorem filter_id_eq_self (steps : List PlanStep)
    (hnd : (steps.map PlanStep.id).Nodup) (t : PlanStep) (ht : t ∈ steps) :
    steps.filter (fun x => x.dependsOn ≠ "" && x.id == t.id) =
      if t.dependsOn = "" then [] else [t] := by
  induction steps with
  | nil => simp at ht
  | cons h rest ih =>
    simp only [List.map_cons, List.nodup_cons] at hnd
    rcases List.mem_cons.mp ht with heq | htail
    · subst heq
      have hrest : rest.filter (fun x => x.dependsOn ≠ "" && x.id == t.id) = [] := by
        apply List.filter_eq_nil_iff.mpr
        intro x hx
        have : x.id ≠ t.id := by
          intro hc
          exact hnd.1 (hc ▸ List.mem_map_of_mem PlanStep.id hx)
        simp [this]
      by_cases hdep : t.dependsOn = ""
      · simp [List.filter_cons, hdep, hrest]
        intro a ha _ hc
        exact hnd.1 (hc ▸ List.mem_map_of_mem PlanStep.id ha)
      · simp [List.filter_cons, hdep, hrest]
        intro a ha _ hc
        exact hnd.1 (hc ▸ List.mem_map_of_mem PlanStep.id ha)
    · have hid : h.id ≠ t.id := by
        intro hc
        exact hnd.1 (hc ▸ List.mem_map_of_mem PlanStep.id htail)
      have hcond : (h.dependsOn ≠ "" && h.id == t.id) = false := by
        simp [hid]
      simp only [List.filter_cons, hcond, Bool.false_eq_true, if_false]
      exact ih hnd.2 htail

theorem buildInDegree_char (steps : List PlanStep)
    (hnd : (steps.map PlanStep.id).Nodup) :
    buildInDegree steps = steps.map (fun s => (s.id, degInit s)) := by
  unfold buildInDegree
  have h0 : steps.foldl (fun m s => upsert m s.id (0 : Int)) [] =
      steps.map (fun s => (s.id, (0 : Int))) := by
    simpa using foldl_upsert_fresh (fun _ => (0 : Int)) steps [] (by simp [keys]) hnd
  rw [h0]
  rw [addDeg_fold_char steps hnd steps (fun _ => 0) (fun x hx => hx)]
  apply List.map_congr_left
  intro t ht
  rw [filter_id_eq_self steps hnd t ht]
  unfold degInit
  by_cases hdep : t.dependsOn = "" <;> simp [hdep]

theorem dependents_fold_lookup :
    ∀ (l : List PlanStep) (m : List (String × List String)) (p : String),
      lookupD
        (l.foldl
          (fun m s =>
            if s.dependsOn ≠ "" then
              upsert m s.dependsOn (lookupD m s.dependsOn [] ++ [s.id])
            else m)
          m) p [] =
      lookupD m p [] ++
        ((l.filter (fun s => s.dependsOn ≠ "" && s.dependsOn == p)).map
          PlanStep.id) := by
  intro l
  induction l with
  | nil =>
    intro m p
    simp
  | cons x l' ih =>
    intro m p
    simp only [List.foldl_cons]
    by_cases hdep : x.dependsOn = ""
    · rw [if_neg (by simp [hdep])]
      rw [ih m p]
      simp [List.filter_cons, hdep]
    · rw [if_pos (by simpa using hdep)]
      rw [ih (upsert m x.dependsOn (lookupD m x.dependsOn [] ++ [x.id])) p]
      rw [lookupD_upsert m x.dependsOn p (lookupD m x.dependsOn [] ++ [x.id]) []]
      by_cases hp : p = x.dependsOn
      · have hcond : (x.dependsOn ≠ "" && x.dependsOn == p) = true := by
          simp [hdep, hp]
        rw [if_pos hp]
        simp only [List.filter_cons, hcond, if_true, List.map_cons, hp]
        rw [if_pos (show (decide (x.dependsOn ≠ "") && x.dependsOn == x.dependsOn)
          = true by simp [hdep])]
        simp [List.append_assoc]
      · rw [if_neg hp]
        have hnc : ¬(¬x.dependsOn = "" ∧ x.dependsOn = p) := fun hc => hp hc.2.symm
        simp [List.filter_cons, hnc]

theorem dependents_lookup (steps : List PlanStep) (p : String) :
    lookupD (buildDependents steps) p [] =
      ((steps.filter (fun s => s.dependsOn ≠ "" && s.dependsOn == p)).map
        PlanStep.id) := by
  unfold buildDependents
  rw [dependents_fold_lookup steps [] p]
  simp [lookupD]

theorem initQueue_char (steps : List PlanStep)
    (hnd : (steps.map PlanStep.id).Nodup) :
    initQueue steps =
      (steps.filter (fun s => s.dependsOn = "")).map PlanStep.id := by
  unfold initQueue
  rw [buildInDegree_char steps hnd]
  rw [List.filter_map, List.map_map]
  have hcong : steps.filter ((fun p => p.2 = (0 : Int)) ∘
      fun s => (s.id, degInit s)) = steps.filter (fun s => s.dependsOn = "") := by
    apply List.filter_congr
    intro s _
    unfold degInit
    by_cases hdep : s.dependsOn = "" <;> simp [hdep]
  rw [hcong]
  rfl

theorem depsOk_mem_parent :
    ∀ (l : List PlanStep) (acc : List String), depsOk acc l →
      ∀ x ∈ l, x.dependsOn ≠ "" → x.dependsOn ∈ acc ++ l.map PlanStep.id := by
  intro l
  induction l with
  | nil =>
    intro acc _ x hx
    simp at hx
  | cons h rest ih =>
    intro acc hok x hx hxd
    rcases hok with ⟨hh, hrest⟩
    rcases List.mem_cons.mp hx with heq | htail
    · subst heq
      exact List.mem_append_left _ (hh hxd)
    · have := ih (acc ++ [h.id]) hrest x htail hxd
      simp only [List.map_cons]
      simpa [List.append_assoc] using this

theorem depsOk_append_singleton :
    ∀ (l : List PlanStep) (acc : List String) (x : PlanStep),
      depsOk acc l →
      (x.dependsOn ≠ "" → x.dependsOn ∈ acc ++ l.map PlanStep.id) →
      depsOk acc (l ++ [x]) := by
  intro l
  induction l with
  | nil =>
    intro acc x _ hx
    exact ⟨by simpa using hx, trivial⟩
  | cons h rest ih =>
    intro acc x hok hx
    rcases hok with ⟨hh, hrest⟩
    simp only [List.cons_append, depsOk]
    refine ⟨hh, ?_⟩
    apply ih (acc ++ [h.id]) x hrest
    intro hxd
    have := hx hxd
    simp only [List.map_cons] at this
    simpa [List.append_assoc] using this

theorem depsOk_decomp :
    ∀ (l₁ : List PlanStep) (acc : List String) (x : PlanStep)
      (l₂ : List PlanStep),
      depsOk acc (l₁ ++ x :: l₂) → x.dependsOn ≠ "" →
      x.dependsOn ∈ acc ++ l₁.map PlanStep.id := by
  intro l₁
  induction l₁ with
  | nil =>
    intro acc x l₂ hok hxd
    simpa using hok.1 hxd
  | cons h rest ih =>
    intro acc x l₂ hok hxd
    simp only [List.cons_append, depsOk] at hok
    have := ih (acc ++ [h.id]) x l₂ hok.2 hxd
    simp only [List.map_cons]
    simpa [List.append_assoc] using this

theorem kahnFold_all_one (steps : List PlanStep)
    (hnd : (steps.map PlanStep.id).Nodup) :
    ∀ (children : List String) (S rest : List String),
      children.Nodup →
      (∀ c ∈ children, ∃ t ∈ steps, t.id = c) →
      (∀ c ∈ children, c ∉ S) →
      children.foldl kahnStep
        (steps.map (fun s => (s.id, if s.id ∈ S then (0 : Int) else 1)), rest) =
      (steps.map (fun s => (s.id, if s.id ∈ S ++ children then (0 : Int) else 1)),
        rest ++ children) := by
  intro children
  induction children with
  | nil =>
    intro S rest _ _ _
    simp
  | cons c cs ih =>
    intro S rest hcnd hcsteps hcS
    obtain ⟨t, ht, htc⟩ := hcsteps c (List.mem_cons_self c cs)
    have hcnotS : c ∉ S := hcS c (List.mem_cons_self c cs)
    simp only [List.nodup_cons] at hcnd
    simp only [List.foldl_cons]
    have hlook :
        lookupD (steps.map (fun s => (s.id, if s.id ∈ S then (0 : Int) else 1)))
          c 0 = 1 := by
      have hl := lookupD_map_self (fun s => if s.id ∈ S then (0 : Int) else 1) 0
        steps hnd t ht
      rw [htc] at hl
      rw [hl]
      show (if t.id ∈ S then (0 : Int) else 1) = 1
      rw [if_neg (fun hh => hcnotS (htc ▸ hh))]
    have hstep :
        kahnStep
          (steps.map (fun s => (s.id, if s.id ∈ S then (0 : Int) else 1)), rest)
          c =
        (upsert (steps.map (fun s => (s.id, if s.id ∈ S then (0 : Int) else 1)))
            c 0, rest ++ [c]) := by
      unfold kahnStep
      dsimp only
      rw [hlook]
      norm_num
    rw [hstep]
    rw [← htc, upsert_map_incr steps hnd
      (fun s => if s.id ∈ S then (0 : Int) else 1) t ht 0]
    have hshape :
        steps.map (fun s =>
          (s.id, if s.id = t.id then (0 : Int) else if s.id ∈ S then 0 else 1)) =
        steps.map (fun s =>
          (s.id, if s.id ∈ S ++ [t.id] then (0 : Int) else 1)) := by
      apply List.map_congr_left
      intro s _
      by_cases hsid : s.id = t.id
      · simp [hsid]
      · have hmem : (s.id ∈ S ++ [t.id]) = (s.id ∈ S) := by
          simp [List.mem_append, hsid]
        simp only [if_neg hsid, hmem]
    rw [hshape]
    rw [ih (S ++ [t.id]) (rest ++ [t.id]) hcnd.2
      (fun c' hc' => hcsteps c' (List.mem_cons_of_mem c hc'))
      (fun c' hc' => by
        simp only [List.mem_append, List.mem_singleton]
        push_neg
        refine ⟨hcS c' (List.mem_cons_of_mem c hc'), ?_⟩
        rw [← htc] at hcnd
        exact fun hh => hcnd.1 (hh ▸ hc'))]
    have hS2 : (S ++ [t.id]) ++ cs = S ++ t.id :: cs := by
      simp
    have hR2 : (rest ++ [t.id]) ++ cs = rest ++ t.id :: cs := by
      simp
    rw [hR2]
    simp only [hS2]

theorem kahnLoop_master (steps : List PlanStep)
    (hnd : (steps.map PlanStep.id).Nodup) :
    ∀ (fuel : Nat) (q : List String) (popped : List PlanStep),
      (∀ i ∈ q, ∃ s ∈ steps, s.id = i) →
      (∀ x ∈ popped, x ∈ steps) →
      (popped.map PlanStep.id ++ q).Nodup →
      depsOk [] popped →
      (∀ i ∈ q, ∀ s ∈ steps, s.id = i → s.dependsOn ≠ "" →
        s.dependsOn ∈ popped.map PlanStep.id) →
      (∀ t ∈ steps, t.id ∉ popped.map PlanStep.id ++ q →
        t.dependsOn ≠ "" ∧ t.dependsOn ∉ popped.map PlanStep.id) →
      q.length + degSum (steps.map (fun s =>
        (s.id, if s.id ∈ popped.map PlanStep.id ++ q then (0 : Int) else 1)))
          ≤ fuel →
      kahnPost steps
        (kahnLoop (steps.map (fun s => (s.id, s))) (buildDependents steps)
          fuel q
          (steps.map (fun s =>
            (s.id, if s.id ∈ popped.map PlanStep.id ++ q then (0 : Int) else 1)))
          popped) := by
  intro fuel
  induction fuel with
  | zero =>
    intro q popped hq hp hS hord hqp hun hfuel
    have hq0 : q = [] := by
      cases q with
      | nil => rfl
      | cons a as =>
        simp only [List.length_cons] at hfuel
        omega
    subst hq0
    show kahnPost steps popped
    refine ⟨hp, by simpa using hS, hord, ?_⟩
    intro t ht htn
    have := hun t ht (by simpa using htn)
    simpa using this
  | succ f ih =>
    intro q popped hq hp hS hord hqp hun hfuel
    cases q with
    | nil =>
      show kahnPost steps popped
      refine ⟨hp, by simpa using hS, hord, ?_⟩
      intro t ht htn
      have := hun t ht (by simpa using htn)
      simpa using this
    | cons id rest =>
      obtain ⟨s0, hs0, hsid⟩ := hq id (List.mem_cons_self id rest)
      have hlook : (steps.map (fun t => (t.id, t))).lookup id = some s0 := by
        have h := lookup_map_self steps hnd s0 hs0
        rwa [hsid] at h
      have hCmem : ∀ c ∈ (steps.filter
            (fun u => u.dependsOn ≠ "" && u.dependsOn == id)).map PlanStep.id,
          ∃ t ∈ steps, t.id = c ∧ t.dependsOn = id ∧ t.dependsOn ≠ "" := by
        intro c hc
        obtain ⟨t, htf, htid⟩ := List.mem_map.mp hc
        have hmf := List.mem_filter.mp htf
        have hcond := hmf.2
        simp only [Bool.and_eq_true, decide_eq_true_eq, beq_iff_eq, ne_eq]
          at hcond
        exact ⟨t, hmf.1, htid, hcond.2, hcond.1⟩
      have hCnodup : ((steps.filter
            (fun u => u.dependsOn ≠ "" && u.dependsOn == id)).map
              PlanStep.id).Nodup :=
        List.Nodup.sublist
          (List.Sublist.map PlanStep.id (List.filter_sublist steps)) hnd
      have hid_not_popped : id ∉ popped.map PlanStep.id := by
        have h3 := List.nodup_append.mp hS
        intro hc
        exact h3.2.2 hc (List.mem_cons_self id rest)
      have hCnotS : ∀ c ∈ (steps.filter
            (fun u => u.dependsOn ≠ "" && u.dependsOn == id)).map PlanStep.id,
          c ∉ popped.map PlanStep.id ++ id :: rest := by
        intro c hc hmem
        obtain ⟨t, ht, htid, htdep, htne⟩ := hCmem c hc
        rcases List.mem_append.mp hmem with hcp | hcq
        · obtain ⟨p, hpm, hpid⟩ := List.mem_map.mp hcp
          have hpt : p = t :=
            id_injective steps hnd p (hp p hpm) t ht (hpid.trans htid.symm)
          have hd := depsOk_mem_parent popped [] hord t (hpt ▸ hpm) htne
          rw [htdep] at hd
          exact hid_not_popped (by simpa using hd)
        · have hd := hqp c hcq t ht htid htne
          rw [htdep] at hd
          exact hid_not_popped hd
      have hSeq : (popped.map PlanStep.id ++ id :: rest) ++
          (steps.filter
            (fun u => u.dependsOn ≠ "" && u.dependsOn == id)).map PlanStep.id =
          (popped ++ [s0]).map PlanStep.id ++
            (rest ++ (steps.filter
              (fun u => u.dependsOn ≠ "" && u.dependsOn == id)).map
                PlanStep.id) := by
        simp [hsid]
      rw [kahnLoop, hlook, dependents_lookup steps id]
      dsimp only
      rw [kahnFold_all_one steps hnd
        ((steps.filter
          (fun u => u.dependsOn ≠ "" && u.dependsOn == id)).map PlanStep.id)
        (popped.map PlanStep.id ++ id :: rest) rest hCnodup
        (fun c hc => by obtain ⟨t, ht, htid, _, _⟩ := hCmem c hc
                        exact ⟨t, ht, htid⟩)
        hCnotS]
      dsimp only
      simp only [hSeq]
      apply ih
      · intro i hi
        rcases List.mem_append.mp hi with hri | hci
        · exact hq i (List.mem_cons_of_mem id hri)
        · obtain ⟨t, ht, htid, _, _⟩ := hCmem i hci
          exact ⟨t, ht, htid⟩
      · intro x hx
        rcases List.mem_append.mp hx with h1 | h2
        · exact hp x h1
        · rw [List.mem_singleton.mp h2]
          exact hs0
      · rw [← hSeq]
        refine List.nodup_append.mpr ⟨hS, hCnodup, ?_⟩
        intro a haS haC
        exact hCnotS a haC haS
      · refine depsOk_append_singleton popped [] s0 hord ?_
        intro hdep
        have := hqp id (List.mem_cons_self id rest) s0 hs0 hsid hdep
        simpa using this
      · intro i hi u hu hui hud
        rcases List.mem_append.mp hi with hri | hci
        · have := hqp i (List.mem_cons_of_mem id hri) u hu hui hud
          rw [List.map_append]
          exact List.mem_append_left _ this
        · obtain ⟨t, ht, htid, htdep, _⟩ := hCmem i hci
          have hut : u = t :=
            id_injective steps hnd u hu t ht (hui.trans htid.symm)
          rw [List.map_append]
          apply List.mem_append_right
          simp [hut, htdep, hsid]
      · intro t ht htn
        rw [← hSeq] at htn
        have htS : t.id ∉ popped.map PlanStep.id ++ id :: rest :=
          fun hc => htn (List.mem_append_left _ hc)
        have htC : t.id ∉ (steps.filter
            (fun u => u.dependsOn ≠ "" && u.dependsOn == id)).map PlanStep.id :=
          fun hc => htn (List.mem_append_right _ hc)
        obtain ⟨htne, htnp⟩ := hun t ht htS
        refine ⟨htne, ?_⟩
        rw [List.map_append]
        intro hc
        rcases List.mem_append.mp hc with h1 | h2
        · exact htnp h1
        · simp only [List.map_cons, List.map_nil, List.mem_singleton] at h2
          apply htC
          apply List.mem_map_of_mem PlanStep.id
          apply List.mem_filter.mpr
          refine ⟨ht, ?_⟩
          have hidne : ¬id = "" := fun hid0 => htne (by rw [h2, hsid, hid0])
          simp [htne, h2, hsid, hidne]
      · have hmf := kahnFold_measure
          ((steps.filter
            (fun u => u.dependsOn ≠ "" && u.dependsOn == id)).map PlanStep.id)
          (steps.map (fun s =>
            (s.id, if s.id ∈ popped.map PlanStep.id ++ id :: rest
              then (0 : Int) else 1)), rest)
        rw [kahnFold_all_one steps hnd
          ((steps.filter
            (fun u => u.dependsOn ≠ "" && u.dependsOn == id)).map PlanStep.id)
          (popped.map PlanStep.id ++ id :: rest) rest hCnodup
          (fun c hc => by obtain ⟨t, ht, htid, _, _⟩ := hCmem c hc
                          exact ⟨t, ht, htid⟩)
          hCnotS] at hmf
        dsimp only at hmf
        simp only [hSeq] at hmf
        simp only [List.length_cons] at hfuel
        omega

theorem validateSteps_closed (registry : List String) (allSteps : List PlanStep) :
    ∀ l, validateSteps registry allSteps l = none →
      ∀ s ∈ l, s.dependsOn ≠ "" → ∃ t ∈ allSteps, t.id = s.dependsOn := by
  intro l
  induction l with
  | nil =>
    intro _ s hs
    simp at hs
  | cons step rest ih =>
    intro hv s hs hsd
    simp only [validateSteps] at hv
    split at hv
    · exact absurd hv (by simp)
    · split at hv
      · exact absurd hv (by simp)
      · rcases List.mem_cons.mp hs with h1 | h2
        · subst h1
          rename_i hc1 hc2
          have hany : allSteps.any (fun t => t.id = s.dependsOn) = true := by
            by_contra hno
            apply hc2
            have hfa : allSteps.any (fun t => t.id = s.dependsOn) = false :=
              Bool.eq_false_iff.mpr hno
            simp [hsd, hfa]
          obtain ⟨t, ht, htb⟩ := List.any_eq_true.mp hany
          exact ⟨t, ht, by simpa using htb⟩
        · exact ih hv s h2 hsd

theorem kahn_run_post (steps : List PlanStep)
    (hnd : (steps.map PlanStep.id).Nodup) :
    kahnPost steps
      (kahnLoop (buildStepMap steps) (buildDependents steps)
        ((initQueue steps).length + degSum (buildInDegree steps))
        (initQueue steps) (buildInDegree steps) []) := by
  have hdeg : steps.map (fun s =>
      (s.id,
        if s.id ∈ List.map PlanStep.id ([] : List PlanStep) ++ initQueue steps
        then (0 : Int) else 1)) = buildInDegree steps := by
    rw [buildInDegree_char steps hnd]
    apply List.map_congr_left
    intro s hsm
    simp only [List.map_nil, List.nil_append]
    rw [initQueue_char steps hnd]
    by_cases hdep : s.dependsOn = ""
    · have hmem : s.id ∈
          (steps.filter (fun u => u.dependsOn = "")).map PlanStep.id :=
        List.mem_map_of_mem PlanStep.id
          (List.mem_filter.mpr ⟨hsm, by simp [hdep]⟩)
      simp [degInit, hdep, hmem]
    · have hmem : s.id ∉
          (steps.filter (fun u => u.dependsOn = "")).map PlanStep.id := by
        intro hc
        obtain ⟨t, htf, hti⟩ := List.mem_map.mp hc
        have htm := List.mem_filter.mp htf
        have hts : t = s := id_injective steps hnd t htm.1 s hsm hti
        apply hdep
        rw [← hts]
        simpa using htm.2
      simp [degInit, hdep, hmem]
  have h1 : ∀ i ∈ initQueue steps, ∃ s ∈ steps, s.id = i := by
    rw [initQueue_char steps hnd]
    intro i hi
    obtain ⟨t, htf, hti⟩ := List.mem_map.mp hi
    exact ⟨t, (List.mem_filter.mp htf).1, hti⟩
  have h3 : (List.map PlanStep.id ([] : List PlanStep) ++
      initQueue steps).Nodup := by
    simp only [List.map_nil, List.nil_append]
    rw [initQueue_char steps hnd]
    exact List.Nodup.sublist
      (List.Sublist.map PlanStep.id (List.filter_sublist steps)) hnd
  have h5 : ∀ i ∈ initQueue steps, ∀ s ∈ steps, s.id = i → s.dependsOn ≠ "" →
      s.dependsOn ∈ List.map PlanStep.id ([] : List PlanStep) := by
    intro i hi s hsm hsi hsdep
    exfalso
    rw [initQueue_char steps hnd] at hi
    obtain ⟨t, htf, hti⟩ := List.mem_map.mp hi
    have htm := List.mem_filter.mp htf
    have hts : t = s := id_injective steps hnd t htm.1 s hsm (hti.trans hsi.symm)
    apply hsdep
    rw [← hts]
    simpa using htm.2
  have h6 : ∀ t ∈ steps,
      t.id ∉ List.map PlanStep.id ([] : List PlanStep) ++ initQueue steps →
      t.dependsOn ≠ "" ∧
        t.dependsOn ∉ List.map PlanStep.id ([] : List PlanStep) := by
    intro t ht htn
    simp only [List.map_nil, List.nil_append] at htn
    constructor
    · intro hdep
      apply htn
      rw [initQueue_char steps hnd]
      exact List.mem_map_of_mem PlanStep.id
        (List.mem_filter.mpr ⟨ht, by simp [hdep]⟩)
    · simp
  have hm := kahnLoop_master steps hnd
    ((initQueue steps).length + degSum (buildInDegree steps))
    (initQueue steps) [] h1 (by intro x hx; simp at hx) h3 True.intro h5 h6
    (by rw [hdeg])
  rw [← buildStepMap_char steps hnd, hdeg] at hm
  exact hm

theorem iterChain_ne_nil (f : PlanStep → PlanStep) (k : Nat) (x : PlanStep) :
    iterChain f k x ≠ [] := by
  cases k <;> simp [iterChain]

theorem iterChain_cons_tail (f : PlanStep → PlanStep) (k : Nat) (x : PlanStep) :
    iterChain f k x = x :: (iterChain f k x).tail := by
  cases k <;> rfl

theorem iterChain_head (f : PlanStep → PlanStep) (k : Nat) (x : PlanStep) :
    (iterChain f k x).head? = some x := by
  cases k <;> rfl

theorem iterChain_mem (f : PlanStep → PlanStep) (P : PlanStep → Prop)
    (hP : ∀ y, P y → P (f y)) :
    ∀ (k : Nat) (x : PlanStep), P x → ∀ z ∈ iterChain f k x, P z := by
  intro k
  induction k with
  | zero =>
    intro x hx z hz
    simp only [iterChain, List.mem_singleton] at hz
    rwa [hz]
  | succ n ihn =>
    intro x hx z hz
    simp only [iterChain, List.mem_cons] at hz
    rcases hz with h1 | h2
    · rwa [h1]
    · exact ihn (f x) (hP x hx) z h2

theorem iterChain_chain (f : PlanStep → PlanStep) (P : PlanStep → Prop)
    (hP : ∀ y, P y → P (f y)) (hR : ∀ y, P y → y.dependsOn = (f y).id) :
    ∀ (k : Nat) (x : PlanStep), P x →
      List.Chain' (fun a b => a.dependsOn = b.id) (iterChain f k x) := by
  intro k
  induction k with
  | zero =>
    intro x _
    simp [iterChain]
  | succ n ihn =>
    intro x hx
    show List.Chain' _ (x :: iterChain f n (f x))
    apply List.chain'_cons'.mpr
    constructor
    · intro b hb
      rw [iterChain_head] at hb
      have hbfx : b = f x := by simpa using hb.symm
      rw [hbfx]
      exact hR x hx
    · exact ihn (f x) (hP x hx)

theorem iterChain_getLast (f : PlanStep → PlanStep) :
    ∀ (k : Nat) (x : PlanStep) (h : iterChain f k x ≠ []),
      (iterChain f k x).getLast h = f^[k] x := by
  intro k
  induction k with
  | zero =>
    intro x h
    rfl
  | succ n ihn =>
    intro x h
    show (x :: iterChain f n (f x)).getLast _ = _
    rw [List.getLast_cons (iterChain_ne_nil f n (f x))]
    rw [ihn (f x) (iterChain_ne_nil f n (f x))]
    exact (Function.iterate_succ_apply f n x).symm

theorem getLast_eq_of_eq (l₁ l₂ : List PlanStep) (h₁ : l₁ ≠ []) (h₂ : l₂ ≠ [])
    (he : l₁ = l₂) : l₁.getLast h₁ = l₂.getLast h₂ := by
  subst he
  rfl

theorem chain_succ_or_last :
    ∀ (m : List PlanStep) (hm : m ≠ []),
      List.Chain' (fun a b => a.dependsOn = b.id) m →
      ∀ x ∈ m, x = m.getLast hm ∨ ∃ y ∈ m, x.dependsOn = y.id := by
  intro m
  induction m with
  | nil =>
    intro hm
    exact absurd rfl hm
  | cons a rest ih =>
    intro hm hch x hx
    cases rest with
    | nil =>
      left
      simp only [List.mem_singleton] at hx
      rw [hx]
      rfl
    | cons b rest' =>
      have hch' := List.chain'_cons.mp hch
      rcases List.mem_cons.mp hx with h1 | h2
      · right
        exact ⟨b, List.mem_cons_of_mem a (List.mem_cons_self b rest'),
          h1 ▸ hch'.1⟩
      · rcases ih (List.cons_ne_nil b rest') hch'.2 x h2 with hl | ⟨y, hy, hxy⟩
        · left
          rw [hl]
          exact (List.getLast_cons (List.cons_ne_nil b rest')).symm
        · right
          exact ⟨y, List.mem_cons_of_mem a hy, hxy⟩

theorem cycle_closed (m : List PlanStep) (hm : m ≠ [])
    (hch : List.Chain' (fun a b => a.dependsOn = b.id) m)
    (hwrap : (m.getLast hm).dependsOn = (m.head hm).id) :
    ∀ x ∈ m, ∃ y ∈ m, x.dependsOn = y.id := by
  intro x hx
  rcases chain_succ_or_last m hm hch x hx with hl | hy
  · exact ⟨m.head hm, List.head_mem hm, hl ▸ hwrap⟩
  · exact hy

theorem depsOk_no_closed_subset (steps : List PlanStep)
    (hnd : (steps.map PlanStep.id).Nodup) :
    ∀ (ordered : List PlanStep) (acc : List String),
      depsOk acc ordered → (∀ x ∈ ordered, x ∈ steps) →
      ∀ (C : List PlanStep), C ≠ [] → (∀ x ∈ C, x ∈ steps) →
      (∀ x ∈ C, x.dependsOn ≠ "") →
      (∀ x ∈ C, ∃ y ∈ C, x.dependsOn = y.id) →
      (∀ x ∈ C, x.id ∉ acc) →
      ¬(∀ x ∈ C, x ∈ ordered) := by
  intro ordered
  induction ordered with
  | nil =>
    intro acc _ _ C hCne _ _ _ _ hall
    obtain ⟨c, hc⟩ := List.exists_mem_of_ne_nil C hCne
    exact absurd (hall c hc) (List.not_mem_nil c)
  | cons z rest ih =>
    intro acc hok hos C hCne hCs hCd hCc hCa hall
    rcases hok with ⟨hz, hrest⟩
    by_cases hzC : z ∈ C
    · have hzacc := hz (hCd z hzC)
      obtain ⟨y, hyC, hyid⟩ := hCc z hzC
      exact hCa y hyC (hyid ▸ hzacc)
    · refine ih (acc ++ [z.id]) hrest
        (fun x hx => hos x (List.mem_cons_of_mem z hx))
        C hCne hCs hCd hCc ?_ ?_
      · intro x hxC
        simp only [List.mem_append, List.mem_singleton]
        push_neg
        refine ⟨hCa x hxC, ?_⟩
        intro hxz
        have hxe : x = z := id_injective steps hnd x (hCs x hxC) z
          (hos z (List.mem_cons_self z rest)) hxz
        exact hzC (hxe ▸ hxC)
      · intro x hxC
        rcases List.mem_cons.mp (hall x hxC) with h1 | h2
        · exact absurd (h1 ▸ hxC) hzC
        · exact h2

theorem cycle_of_incomplete (steps : List PlanStep)
    (hnd : (steps.map PlanStep.id).Nodup)
    (hclosed : ∀ s ∈ steps, s.dependsOn ≠ "" → ∃ t ∈ steps, t.id = s.dependsOn)
    (r : List PlanStep) (hpost : kahnPost steps r)
    (hlen : r.length ≠ steps.length) : HasCycle steps := by
  obtain ⟨hsub, hndr, hord, hmiss⟩ := hpost
  have hne : ∃ t ∈ steps, t.id ∉ r.map PlanStep.id := by
    by_contra hall
    push_neg at hall
    have hsub2 : steps.map PlanStep.id ⊆ r.map PlanStep.id := by
      intro a ha
      obtain ⟨t, ht, hta⟩ := List.mem_map.mp ha
      exact hta ▸ hall t ht
    have hsp := List.subperm_of_subset hnd hsub2
    have h1 : steps.length ≤ r.length := by simpa using hsp.length_le
    have hrsub := List.subperm_of_subset (List.Nodup.of_map PlanStep.id hndr)
      hsub
    have h2 : r.length ≤ steps.length := hrsub.length_le
    omega
  obtain ⟨t0, ht0, ht0n⟩ := hne
  have hstep : ∀ t, t ∈ steps ∧ t.id ∉ r.map PlanStep.id →
      ((parentOf steps t ∈ steps ∧
          (parentOf steps t).id ∉ r.map PlanStep.id) ∧
        t.dependsOn = (parentOf steps t).id ∧ t.dependsOn ≠ "") := by
    rintro t ⟨ht, htn⟩
    obtain ⟨htne, htpn⟩ := hmiss t ht htn
    obtain ⟨u, hu, huid⟩ := hclosed t ht htne
    have hfind : (steps.find? (fun v => v.id == t.dependsOn)).isSome :=
      List.find?_isSome.mpr ⟨u, hu, by simp [huid]⟩
    obtain ⟨y, hy⟩ := Option.isSome_iff_exists.mp hfind
    have hfy : parentOf steps t = y := by
      unfold parentOf
      rw [hy]
      rfl
    have hyst : y ∈ steps := List.mem_of_find?_eq_some hy
    have hyid : y.id = t.dependsOn := by
      have := List.find?_some hy
      simpa using this
    rw [hfy]
    exact ⟨⟨hyst, by rw [hyid]; exact htpn⟩, hyid.symm, htne⟩
  have hPf : ∀ y, (y ∈ steps ∧ y.id ∉ r.map PlanStep.id) →
      (parentOf steps y ∈ steps ∧
        (parentOf steps y).id ∉ r.map PlanStep.id) :=
    fun y hy => (hstep y hy).1
  have hiter : ∀ k, (parentOf steps)^[k] t0 ∈ steps ∧
      ((parentOf steps)^[k] t0).id ∉ r.map PlanStep.id := by
    intro k
    induction k with
    | zero => exact ⟨ht0, ht0n⟩
    | succ n ihn =>
      rw [Function.iterate_succ_apply']
      exact hPf _ ihn
  have key : ∀ (a k : Nat),
      (parentOf steps)^[a] t0 = (parentOf steps)^[a + (k + 1)] t0 →
      HasCycle steps := by
    intro a k habe
    have hret : (parentOf steps)^[k + 1] ((parentOf steps)^[a] t0) =
        (parentOf steps)^[a] t0 := by
      have h := (Function.iterate_add_apply (parentOf steps) (k + 1) a t0).symm
      have hc : k + 1 + a = a + (k + 1) := by omega
      rw [hc] at h
      rw [h]
      exact habe.symm
    have hXP := hiter a
    have hconsEq : (parentOf steps)^[a] t0 ::
        (iterChain (parentOf steps) k ((parentOf steps)^[a] t0)).tail =
        iterChain (parentOf steps) k ((parentOf steps)^[a] t0) :=
      (iterChain_cons_tail (parentOf steps) k ((parentOf steps)^[a] t0)).symm
    refine ⟨(parentOf steps)^[a] t0,
      (iterChain (parentOf steps) k ((parentOf steps)^[a] t0)).tail,
      ?_, ?_, ?_, ?_⟩
    · intro x hx
      rw [hconsEq] at hx
      exact (iterChain_mem (parentOf steps)
        (fun y => y ∈ steps ∧ y.id ∉ r.map PlanStep.id) hPf k
        ((parentOf steps)^[a] t0) hXP x hx).1
    · intro x hx
      rw [hconsEq] at hx
      have hPx := iterChain_mem (parentOf steps)
        (fun y => y ∈ steps ∧ y.id ∉ r.map PlanStep.id) hPf k
        ((parentOf steps)^[a] t0) hXP x hx
      exact (hstep x hPx).2.2
    · rw [hconsEq]
      exact iterChain_chain (parentOf steps)
        (fun y => y ∈ steps ∧ y.id ∉ r.map PlanStep.id) hPf
        (fun y hy => (hstep y hy).2.1) k ((parentOf steps)^[a] t0) hXP
    · have hgl : ((parentOf steps)^[a] t0 ::
          (iterChain (parentOf steps) k ((parentOf steps)^[a] t0)).tail).getLast
            (List.cons_ne_nil _ _) =
          (parentOf steps)^[k] ((parentOf steps)^[a] t0) := by
        rw [getLast_eq_of_eq _ _ (List.cons_ne_nil _ _)
          (iterChain_ne_nil (parentOf steps) k ((parentOf steps)^[a] t0))
          hconsEq]
        exact iterChain_getLast (parentOf steps) k ((parentOf steps)^[a] t0) _
      rw [hgl]
      have hPlast : (parentOf steps)^[k] ((parentOf steps)^[a] t0) ∈ steps ∧
          ((parentOf steps)^[k] ((parentOf steps)^[a] t0)).id ∉
            r.map PlanStep.id := by
        have hh := (Function.iterate_add_apply (parentOf steps) k a t0).symm
        rw [hh]
        exact hiter (k + a)
      have h1 := (hstep _ hPlast).2.1
      rw [h1]
      have h2 : parentOf steps
          ((parentOf steps)^[k] ((parentOf steps)^[a] t0)) =
          (parentOf steps)^[k + 1] ((parentOf steps)^[a] t0) :=
        (Function.iterate_succ_apply' (parentOf steps) k
          ((parentOf steps)^[a] t0)).symm
      rw [h2, hret]
  have hmapsto : ∀ p ∈ Finset.range (steps.toFinset.card + 1),
      (parentOf steps)^[p] t0 ∈ steps.toFinset :=
    fun p _ => List.mem_toFinset.mpr (hiter p).1
  have hcard : steps.toFinset.card <
      (Finset.range (steps.toFinset.card + 1)).card := by
    simp
  obtain ⟨i, hi, j, hj, hij, heq⟩ :=
    Finset.exists_ne_map_eq_of_card_lt_of_maps_to hcard hmapsto
  rcases Nat.lt_or_ge i j with hlt | hge
  · apply key i (j - i - 1)
    have hji : i + (j - i - 1 + 1) = j := by omega
    rw [hji]
    exact heq
  · have hlt2 : j < i := by omega
    apply key j (i - j - 1)
    have hij2 : j + (i - j - 1 + 1) = i := by omega
    rw [hij2]
    exact heq.symm

theorem executionOrder_eq (steps : List PlanStep) :
    executionOrder steps =
      if steps.length = 0 then Except.ok []
      else if (kahnLoop (buildStepMap steps) (buildDependents steps)
          ((initQueue steps).length + degSum (buildInDegree steps))
          (initQueue steps) (buildInDegree steps) []).length ≠ steps.length then
        Except.error "circular dependency detected in plan steps"
      else
        Except.ok (kahnLoop (buildStepMap steps) (buildDependents steps)
          ((initQueue steps).length + degSum (buildInDegree steps))
          (initQueue steps) (buildInDegree steps) []) := by
  rfl

theorem kahnPost_perm (steps r : List PlanStep) (hpost : kahnPost steps r)
    (hlen : r.length = steps.length) : r.Perm steps := by
  obtain ⟨hsubm, hndr, _, _⟩ := hpost
  have hsp := List.subperm_of_subset (List.Nodup.of_map PlanStep.id hndr) hsubm
  exact hsp.perm_of_length_le (by omega)

theorem executionOrder_ok_cases (steps : List PlanStep)
    (hnd : (steps.map PlanStep.id).Nodup) :
    ∀ r, executionOrder steps = Except.ok r →
      kahnPost steps r ∧ r.length = steps.length := by
  intro r hr
  rw [executionOrder_eq] at hr
  by_cases h0 : steps.length = 0
  · rw [if_pos h0] at hr
    have hs0 : steps = [] := List.length_eq_zero.mp h0
    have hr0 : r = [] := (Except.ok.inj hr).symm
    subst hs0
    subst hr0
    refine ⟨⟨?_, by simp, True.intro, ?_⟩, rfl⟩
    · intro x hx
      simp at hx
    · intro t ht
      simp at ht
  · rw [if_neg h0] at hr
    split at hr
    · exact absurd hr (by simp)
    · rename_i hlen
      push_neg at hlen
      have hre := Except.ok.inj hr
      rw [← hre]
      exact ⟨kahn_run_post steps hnd, hlen⟩

theorem executionOrder_error_cases (steps : List PlanStep)
    (hnd : (steps.map PlanStep.id).Nodup) :
    ∀ e, executionOrder steps = Except.error e →
      e = "circular dependency detected in plan steps" ∧
      ∃ R, kahnPost steps R ∧ R.length ≠ steps.length := by
  intro e he
  rw [executionOrder_eq] at he
  by_cases h0 : steps.length = 0
  · rw [if_pos h0] at he
    exact absurd he (by simp)
  · rw [if_neg h0] at he
    split at he
    · rename_i hlen
      exact ⟨(Except.error.inj he).symm, _, kahn_run_post steps hnd, hlen⟩
    · exact absurd he (by simp)

/-- C3 (amended): for every list of plan steps with pairwise-distinct ids
that passed `Pipeline.validate` (so every non-empty `depends_on` names a step
id of the same list), `executionOrder` returns a permutation of the steps in
which every step with a non-empty `depends_on` appears strictly after the
step it depends on; it returns the circular-dependency error exactly when
the dependency graph has a cycle; and on that error `execute` runs no step
(it returns the error with an empty event trace).  The original claim,
stated without the distinct-id premise, is refuted by `C3_counterexample`. -/
theorem C3_amended_execution_order (registry : List String)
    (steps : List PlanStep)
    (hnd : (steps.map PlanStep.id).Nodup)
    (hval : validateSteps registry steps steps = none) :
    (∀ r, executionOrder steps = Except.ok r →
        r.Perm steps ∧
        ∀ (l₁ l₂ : List PlanStep) (x : PlanStep), r = l₁ ++ x :: l₂ →
          x.dependsOn ≠ "" → x.dependsOn ∈ l₁.map PlanStep.id) ∧
    (executionOrder steps =
        Except.error "circular dependency detected in plan steps" ↔
      HasCycle steps) ∧
    (∀ (e : String) (exec : String → List (String × String) → GoResult)
        (plan : Plan), plan.steps = steps →
      executionOrder steps = Except.error e →
      execute exec plan = (Except.error e, [])) := by
  have hclosed := validateSteps_closed registry steps steps hval
  refine ⟨?_, ⟨?_, ?_⟩, ?_⟩
  · intro r hr
    obtain ⟨hpost, hlen⟩ := executionOrder_ok_cases steps hnd r hr
    refine ⟨kahnPost_perm steps r hpost hlen, ?_⟩
    intro l₁ l₂ x hre hxd
    obtain ⟨_, _, hordr, _⟩ := hpost
    have := depsOk_decomp l₁ [] x l₂ (by rw [← hre]; exact hordr) hxd
    simpa using this
  · intro herr
    obtain ⟨_, R, hpost, hlen⟩ := executionOrder_error_cases steps hnd _ herr
    exact cycle_of_incomplete steps hnd hclosed R hpost hlen
  · intro hcyc
    cases hE : executionOrder steps with
    | error e =>
      obtain ⟨he, _⟩ := executionOrder_error_cases steps hnd e hE
      rw [he]
    | ok r =>
      exfalso
      obtain ⟨hpost, hlen⟩ := executionOrder_ok_cases steps hnd r hE
      obtain ⟨s, l, hmem, hdep, hch, hwrap⟩ := hcyc
      have hperm := kahnPost_perm steps r hpost hlen
      obtain ⟨hsubm, _, hordr, _⟩ := hpost
      refine depsOk_no_closed_subset steps hnd r [] hordr hsubm (s :: l)
        (List.cons_ne_nil s l) hmem hdep
        (cycle_closed (s :: l) (List.cons_ne_nil s l) hch hwrap)
        (fun x _ => List.not_mem_nil x.id) ?_
      intro x hx
      exact hperm.symm.subset (hmem x hx)
  · intro e exec plan hps herr
    unfold execute
    rw [hps, herr]

/-- C3 counterexample to the unamended claim: two steps sharing the id `"x"`
with no dependency at all pass validation, yet `executionOrder` reports the
circular-dependency error although the dependency graph has no cycle (the
id-keyed maps of the Kahn setup collapse the two steps into one entry, so
the result list is shorter than the step list). -/
theorem C3_counterexample :
    validateSteps ["t"] dupIdSteps dupIdSteps = none ∧
    executionOrder dupIdSteps =
      Except.error "circular dependency detected in plan steps" ∧
    ¬HasCycle dupIdSteps := by
  refine ⟨by rfl, by rfl, ?_⟩
  rintro ⟨s, l, hmem, hdep, _, _⟩
  have hs := hmem s (List.mem_cons_self s l)
  have hd := hdep s (List.mem_cons_self s l)
  simp only [dupIdSteps, List.mem_cons, List.not_mem_nil, or_false] at hs
  rcases hs with h1 | h1 <;> (apply hd; rw [h1])

/-- C3 witness: the two-step plan `depSteps` (`step_b` depends on `step_a`)
has distinct ids and passes validation, so the amended theorem applies to
it. -/
theorem C3_amended_execution_order_witness :
    ((depSteps.map PlanStep.id).Nodup ∧
      validateSteps ["list_tool", "read_tool"] depSteps depSteps = none) ∧
    ((∀ r, executionOrder depSteps = Except.ok r →
        r.Perm depSteps ∧
        ∀ (l₁ l₂ : List PlanStep) (x : PlanStep), r = l₁ ++ x :: l₂ →
          x.dependsOn ≠ "" → x.dependsOn ∈ l₁.map PlanStep.id) ∧
    (executionOrder depSteps =
        Except.error "circular dependency detected in plan steps" ↔
      HasCycle depSteps) ∧
    (∀ (e : String) (exec : String → List (String × String) → GoResult)
        (plan : Plan), plan.steps = depSteps →
      executionOrder depSteps = Except.error e →
      execute exec plan = (Except.error e, []))) :=
  ⟨⟨by decide, by rfl⟩,
    C3_amended_execution_order ["list_tool", "read_tool"] depSteps
      (by decide) (by rfl)⟩

end Craby
